import Mathlib

/-!
Verification development for the MahjongGame repository.

The repository contains two variants of the game-logic package:
  * `game_logic/` (imported by the live server `app.py`) — embedded below in
    namespaces `Live` (mahjong.py), `Mcts` (mcts.py), `MahjongMCTS` (mahjong_mcts.py)
    and `App` (app.py);
  * `MahjongGame-master/game_logic/` (an older snapshot) — embedded in
    namespaces `Master` (mahjong.py) and `MasterMcts` (mcts.py).

Conventions of the shallow embedding:
  * Python dicts are association lists `List (key × value)` in insertion order;
    lookup takes the first matching key (keys are unique in every dict the
    program builds).  Assigning to an existing key rewrites it in place,
    assigning a fresh key appends it.
  * A raised Python exception is an `Except.error`/`Option.none`/explicit
    result constructor; the error string names the Python exception.
  * Python floats that only ever hold small integers and exact sums are
    modelled as `ℚ` (the MCTS rewards).
-/

/-- Split a character list on spaces, modelling Python's `str.split()` on the
single-space tile names (no name has leading, trailing or doubled spaces). -/
def splitWords (cs : List Char) : List (List Char) :=
  cs.foldr
    (fun c acc =>
      if c = ' ' then [] :: acc
      else
        match acc with
        | [] => [[c]]
        | w :: ws => (c :: w) :: ws) []

/-- Python's `int(word)` for the words that occur in tile names: a digit string
parses to its value, anything else (`"dragon"`, an empty word) raises
`ValueError`, modelled as `none`. -/
def parseNatDigits (cs : List Char) : Option Nat :=
  if cs.isEmpty then none
  else cs.foldl
    (fun acc c => acc.bind fun n => if c.isDigit then some (n * 10 + (c.toNat - 48)) else none)
    (some 0)

/-- Models `int(name.split()[1])` including both failure modes: a one-word
name raises `IndexError` and a non-numeric second word raises `ValueError`;
both become `none`. -/
def parseSecondWord (name : String) : Option Int :=
  match splitWords name.data with
  | _ :: w :: _ => (parseNatDigits w).map Int.ofNat
  | _ => none

namespace Live

/-- `Tile` from `game_logic/mahjong.py`: the stored fields `name`, `suit`,
`image_path` are all computed from `id` in `Tile.__init__`, so the embedding
keeps only `id` and derives the rest. -/
structure Tile where
  id : Nat
deriving DecidableEq, Repr

/-- The `TILE_NAMES` table of `game_logic/mahjong.py`; `TILE_NAMES.get(tile_id,
"Unknown")` is the fallback used by `Tile.__init__`. -/
def TILE_NAMES (tile_id : Nat) : String :=
  match tile_id with
  | 0 => "bamboo 1" | 1 => "bamboo 2" | 2 => "bamboo 3" | 3 => "bamboo 4"
  | 4 => "bamboo 5" | 5 => "bamboo 6" | 6 => "bamboo 7" | 7 => "bamboo 8"
  | 8 => "bamboo 9"
  | 9 => "characters 1" | 10 => "characters 2" | 11 => "characters 3"
  | 12 => "characters 4" | 13 => "characters 5" | 14 => "characters 6"
  | 15 => "characters 7" | 16 => "characters 8" | 17 => "characters 9"
  | 18 => "dots 1" | 19 => "dots 2" | 20 => "dots 3" | 21 => "dots 4"
  | 22 => "dots 5" | 23 => "dots 6" | 24 => "dots 7" | 25 => "dots 8"
  | 26 => "dots 9"
  | 27 => "east" | 28 => "south" | 29 => "west" | 30 => "north"
  | 31 => "green dragon" | 32 => "red dragon" | 33 => "white dragon"
  | 34 => "flower 1" | 35 => "flower 2" | 36 => "flower 3" | 37 => "flower 4"
  | 38 => "season 1" | 39 => "season 2" | 40 => "season 3" | 41 => "season 4"
  | _ => "Unknown"

/-- `Tile.name` (set in `Tile.__init__`). -/
def Tile.name (t : Tile) : String := TILE_NAMES t.id

/-- `Tile.get_suit` from `game_logic/mahjong.py` (range tests on the id). -/
def Tile.get_suit (t : Tile) : String :=
  if t.id ≤ 8 then "bamboo"
  else if t.id ≤ 17 then "characters"
  else if t.id ≤ 26 then "dots"
  else if t.id ≤ 30 then "winds"
  else if t.id ≤ 33 then "dragons"
  else if t.id ≤ 41 then "bonus"
  else "unknown"

/-- `Tile.suit` (set in `Tile.__init__` from `get_suit`). -/
def Tile.suit (t : Tile) : String := Tile.get_suit t

/-- `create_deck` from `game_logic/mahjong.py`: four copies of each id 0–33,
then one copy of each id 34–41, in ascending id order. -/
def create_deck : List Tile :=
  ((List.range 34).flatMap fun tile_id => List.replicate 4 (Tile.mk tile_id)) ++
    ((List.range 8).map fun k => Tile.mk (34 + k))

/-- `can_claim_pong`: the hand holds at least two copies of the tile id. -/
def can_claim_pong (hand : List Tile) (tile : Tile) : Bool :=
  2 ≤ (hand.filter fun t => t.id == tile.id).length

/-- `can_claim_kong`: the hand holds at least three copies of the tile id. -/
def can_claim_kong (hand : List Tile) (tile : Tile) : Bool :=
  3 ≤ (hand.filter fun t => t.id == tile.id).length

/-- The `hand_numbers` accumulation inside `can_claim_chi`: ranks parsed from
the names of same-suit hand tiles, skipping tiles whose name has no numeric
second word (the `except: continue`). -/
def hand_numbers (hand : List Tile) (tile : Tile) : List Int :=
  hand.foldr
    (fun t acc =>
      if t.suit == tile.suit then
        match parseSecondWord t.name with
        | some num => num :: acc
        | none => acc
      else acc) []

/-- `can_claim_chi` from `game_logic/mahjong.py`.  Returns `(False, None)` for
non-suited candidates or unparseable names, otherwise tests the three
adjacency patterns in order and returns the first sequence collected. -/
def can_claim_chi (hand : List Tile) (tile : Tile) : Bool × Option (List Int) :=
  if ¬(tile.suit == "bamboo" || tile.suit == "characters" || tile.suit == "dots") then
    (false, none)
  else
    match parseSecondWord tile.name with
    | none => (false, none)
    | some tile_number =>
      let hn := hand_numbers hand tile
      let sequences : List (List Int) :=
        (if (tile_number - 2) ∈ hn ∧ (tile_number - 1) ∈ hn then
          [[tile_number - 2, tile_number - 1, tile_number]] else []) ++
        (if (tile_number - 1) ∈ hn ∧ (tile_number + 1) ∈ hn then
          [[tile_number - 1, tile_number, tile_number + 1]] else []) ++
        (if (tile_number + 1) ∈ hn ∧ (tile_number + 2) ∈ hn then
          [[tile_number, tile_number + 1, tile_number + 2]] else [])
      match sequences with
      | [] => (false, none)
      | seq :: _ => (true, some seq)

end Live

namespace Master

/-- `Tile` from `MahjongGame-master/game_logic/mahjong.py`.  Its `__init__`
derives `suit` and `name` with `"bamboo" if id < 9 else "characters" if
id < 18 else "dots"` and `f"{suit} {id % 9 + 1}"`, ignoring the `SUIT_NAMES`
and `TILE_NAMES` tables above it — every id ≥ 18, including winds, dragons and
bonus ids 27–41, is labelled a dots tile with rank `id % 9 + 1`. -/
structure Tile where
  id : Nat
deriving DecidableEq, Repr

/-- `Tile.suit` as computed in the master variant's `Tile.__init__`. -/
def Tile.suit (t : Tile) : String :=
  if t.id < 9 then "bamboo" else if t.id < 18 then "characters" else "dots"

/-- `Tile.name` as computed in the master variant's `Tile.__init__`. -/
def Tile.name (t : Tile) : String :=
  t.suit ++ " " ++ toString (t.id % 9 + 1)

/-- `create_deck` from `MahjongGame-master/game_logic/mahjong.py`: the body is
`[Tile(i) for i in range(27)]`, despite the docstring promising the 144-tile
deck with four copies of ids 0–33 and one of 34–41. -/
def create_deck : List Tile :=
  (List.range 27).map Tile.mk

/-- `can_claim_pong` (master variant). -/
def can_claim_pong (hand : List Tile) (tile : Tile) : Bool :=
  2 ≤ (hand.filter fun t => t.id == tile.id).length

/-- `can_claim_kong` (master variant). -/
def can_claim_kong (hand : List Tile) (tile : Tile) : Bool :=
  3 ≤ (hand.filter fun t => t.id == tile.id).length

/-- The `hand_numbers` accumulation inside the master `can_claim_chi`. -/
def hand_numbers (hand : List Tile) (tile : Tile) : List Int :=
  hand.foldr
    (fun t acc =>
      if t.suit == tile.suit then
        match parseSecondWord t.name with
        | some num => num :: acc
        | none => acc
      else acc) []

/-- `can_claim_chi` from `MahjongGame-master/game_logic/mahjong.py` — the same
pattern logic as the live variant, but over the master `Tile` whose suit/name
derivation treats all ids ≥ 18 as dots tiles. -/
def can_claim_chi (hand : List Tile) (tile : Tile) : Bool × Option (List Int) :=
  if ¬(tile.suit == "bamboo" || tile.suit == "characters" || tile.suit == "dots") then
    (false, none)
  else
    match parseSecondWord tile.name with
    | none => (false, none)
    | some tile_number =>
      let hn := hand_numbers hand tile
      let sequences : List (List Int) :=
        (if (tile_number - 2) ∈ hn ∧ (tile_number - 1) ∈ hn then
          [[tile_number - 2, tile_number - 1, tile_number]] else []) ++
        (if (tile_number - 1) ∈ hn ∧ (tile_number + 1) ∈ hn then
          [[tile_number - 1, tile_number, tile_number + 1]] else []) ++
        (if (tile_number + 1) ∈ hn ∧ (tile_number + 2) ∈ hn then
          [[tile_number, tile_number + 1, tile_number + 2]] else [])
      match sequences with
      | [] => (false, none)
      | seq :: _ => (true, some seq)

end Master

set_option maxRecDepth 100000

/-- Claim C6: "every freshly created deck has exactly 144 tiles, each id 0–33
four times, each id 34–41 once, ascending before any shuffle."  The live
`create_deck` satisfies all of it, but the master variant's `create_deck`
returns only 27 tiles (one copy each of ids 0–26), contradicting its own
docstring and the `"Should be 144 tiles"` comment in the same file's test
block — a code bug in the master snapshot. -/
theorem create_deck_live_ok_master_returns_27 :
    Live.create_deck.length = 144 ∧
    ((List.range 34).all fun i => Live.create_deck.count (Live.Tile.mk i) == 4) = true ∧
    ((List.range 8).all fun k => Live.create_deck.count (Live.Tile.mk (34 + k)) == 1) = true ∧
    List.Sorted (· ≤ ·) (Live.create_deck.map Live.Tile.id) ∧
    Master.create_deck.length = 27 ∧ Master.create_deck.length ≠ 144 :=
  ⟨by decide, by decide, by decide, by decide, by decide, by decide⟩

/-- Claim C5: "canClaimChi reports a sequence only for suited tiles; winds,
dragons and bonus tiles never qualify …".  The live variant refuses the east
wind (id 27), but the master variant's `Tile.__init__` labels id 27 as suit
`"dots"` with name `"dots 1"` (contradicting the `SUIT_NAMES`/`TILE_NAMES`
tables directly above it), so the master `can_claim_chi` reports the sequence
`[1, 2, 3]` for the east wind against a hand holding dots 2 and dots 3 — a
code bug in the master snapshot.  The third conjunct exhibits the fixed
priority order on the live variant: with all three patterns available the
"below" pattern is the one reported. -/
theorem can_claim_chi_master_accepts_wind :
    Master.can_claim_chi [Master.Tile.mk 19, Master.Tile.mk 20] (Master.Tile.mk 27) =
      (true, some [1, 2, 3]) ∧
    Live.can_claim_chi [Live.Tile.mk 19, Live.Tile.mk 20] (Live.Tile.mk 27) = (false, none) ∧
    Live.can_claim_chi [Live.Tile.mk 0, Live.Tile.mk 1, Live.Tile.mk 3, Live.Tile.mk 4]
      (Live.Tile.mk 2) = (true, some [1, 2, 3]) :=
  ⟨by decide, by decide, by decide⟩

namespace App

/-- A recorded meld (`meld_info` in `on_claim_meld`): the source stores tile
dicts `{id, name, suit, image_path}` whose last three fields are derived from
`id`, so the embedding keeps the tiles themselves. -/
structure MeldInfo where
  meld_type : String
  tiles : List Live.Tile
  claimed_by : String
deriving DecidableEq, Repr

/-- The per-room game state of `app.py`: the `positions` and `scores` dicts of
`rooms[room_id]` together with the fields of `rooms[room_id]["game_state"]`.
Python dicts are association lists in insertion order with unique keys. -/
structure Room where
  positions : List (String × String)
  players_hands : List (String × List Live.Tile)
  remaining_deck : List Live.Tile
  discard_pile : List Live.Tile
  last_discard : Option Live.Tile
  current_turn : String
  players_melds : List (String × List MeldInfo)
  scores : List (String × Int)
deriving DecidableEq, Repr

/-- Result of a SocketIO handler: a normal return, a handler-reported error
(`emit('error', ...)` followed by `return`, leaving state untouched), or an
uncaught Python exception. -/
inductive PyResult where
  | ok
  | emitError (msg : String)
  | raised (msg : String)
deriving DecidableEq, Repr

/-- Dict lookup `d.get(k)` / guarded `d[k]`: the first entry with the key
(keys are unique in every dict the program builds). -/
def lookup? {β : Type} (m : List (String × β)) (k : String) : Option β :=
  match m with
  | [] => none
  | p :: rest => if p.1 == k then some p.2 else lookup? rest k

/-- In-place mutation of the value stored at an existing key (for example
`d[k].append(x)`): rewrites the first matching entry and leaves the dict
unchanged when the key is absent — which matches Python, where mutating the
fresh default of `d.get(k, [])` never reaches the dict. -/
def modifyKey {β : Type} (m : List (String × β)) (k : String) (f : β → β) :
    List (String × β) :=
  match m with
  | [] => []
  | p :: rest => if p.1 == k then (p.1, f p.2) :: rest else p :: modifyKey rest k f

/-- The `if position not in d: d[position] = []` / `d[position].append(v)`
idiom of `on_claim_meld`: append to an existing key, or add the key at the
end of the dict with a singleton list. -/
def appendAtKey {β : Type} (m : List (String × List β)) (k : String) (v : β) :
    List (String × List β) :=
  if (lookup? m k).isSome then modifyKey m k (· ++ [v])
  else m ++ [(k, [v])]

/-- `compute_score` from `app.py`: points per pong/kong meld plus the winner
bonus (both `self_drawn` branches add 2).  `meld['tiles'][0]` on an empty tile
list raises `IndexError`, modelled as `none`; chi and unknown meld types add
nothing.  The `hand` parameter is unused in the source as well. -/
def compute_score (hand : List Live.Tile) (melds : List MeldInfo) (self_drawn : Bool) :
    Option Nat :=
  (melds.foldlM
      (fun score meld =>
        if meld.meld_type == "pong" then
          meld.tiles.head?.map fun t => score + (if t.id == 0 || t.id == 8 then 4 else 2)
        else if meld.meld_type == "kong" then
          meld.tiles.head?.map fun t => score + (if t.id == 0 || t.id == 8 then 8 else 4)
        else some score)
      0).map
    fun score => score + (if self_drawn then 2 else 2)

/-- The hand `check_win_and_score` reads for a user: resolve the seat via
`positions.get(username)` (possibly `None`), then the hand, both defaulting
to `[]` exactly as the chained `.get(..., [])` calls do. -/
def seat_hand (rd : Room) (username : String) : List Live.Tile :=
  ((lookup? rd.positions username).bind fun pos => lookup? rd.players_hands pos).getD []

/-- The meld list `check_win_and_score` reads for a user. -/
def seat_melds (rd : Room) (username : String) : List MeldInfo :=
  ((lookup? rd.positions username).bind fun pos => lookup? rd.players_melds pos).getD []

/-- The hand `on_claim_meld` reads for a seat: `players_hands.get(position, [])`. -/
def hand_of (rd : Room) (pos : String) : List Live.Tile :=
  (lookup? rd.players_hands pos).getD []

/-- `check_win_and_score` from `app.py`: count the hand plus 4 per kong meld
and 3 per other meld; the position is terminal when the total is 14 and the
residual hand is a pair of equal ids. -/
def check_win_and_score (rd : Room) (username : String) : Option (Bool × Nat) :=
  let melds := seat_melds rd username
  let hand := seat_hand rd username
  let total := melds.foldl
    (fun acc meld => acc + if meld.meld_type == "kong" then 4 else 3) hand.length
  if total == 14 && hand.length == 2 &&
      (match hand with
        | a :: b :: _ => a.id == b.id
        | _ => false) then
    (compute_score hand melds true).map fun score => (true, score)
  else some (false, 0)

/-- The per-meld points of `settle_scores`: pong 4/2 (terminal id 0 or 8 /
other), kong 8/4, chi 1; `meld['tiles'][0]` raises `IndexError` (`none`) on an
empty tile list for pong and kong only. -/
def meld_points (meld : MeldInfo) : Option Nat :=
  if meld.meld_type == "pong" then
    meld.tiles.head?.map fun t => if t.id == 0 || t.id == 8 then 4 else 2
  else if meld.meld_type == "kong" then
    meld.tiles.head?.map fun t => if t.id == 0 || t.id == 8 then 8 else 4
  else if meld.meld_type == "chi" then some 1
  else some 0

/-- The inner loop of `settle_scores` over one seat's melds. -/
def player_points (melds : List MeldInfo) : Option Nat :=
  melds.foldlM (fun acc m => (meld_points m).map (acc + ·)) 0

/-- The meld-derived points of a seat as `settle_scores` computes them, with
0 for a seat that has no entry in the meld table (or whose points raise). -/
def seat_meld_points (rd : Room) (seat : String) : Nat :=
  ((lookup? rd.players_melds seat).bind player_points).getD 0

/-- `max(player_scores, key=player_scores.get)`: the first entry, in dict
order, whose value is maximal (Python's `max` keeps the first maximum);
`none` on an empty dict models the raised `ValueError`. -/
def maxByVal (l : List (String × Nat)) : Option (String × Nat) :=
  match l with
  | [] => none
  | x :: xs => some (xs.foldl (fun best y => if best.2 < y.2 then y else best) x)

/-- `scores[u] += d`: `none` models the `KeyError` when `u` is not a key. -/
def bump (scores : List (String × Int)) (u : String) (d : Int) :
    Option (List (String × Int)) :=
  if (lookup? scores u).isSome then some (modifyKey scores u (· + d))
  else none

/-- The inner payout loop of `settle_scores`: every entry of `positions`
other than the winner pays `winner_score` (doubled when the winner holds the
east seat) to the winner; a `KeyError` aborts mid-loop with the scores
mutated so far. -/
def pay_inner (entries : List (String × String)) (winner : String) (double : Bool)
    (ws : Nat) (scores : List (String × Int)) : List (String × Int) × Option String :=
  match entries with
  | [] => (scores, none)
  | (loser, _) :: rest =>
    if loser == winner then pay_inner rest winner double ws scores
    else
      let d : Int := (if double then 2 else 1) * (ws : Int)
      match bump scores winner d with
      | none => (scores, some "KeyError")
      | some s1 =>
        match bump s1 loser (-d) with
        | none => (s1, some "KeyError")
        | some s2 => pay_inner rest winner double ws s2

/-- The outer payout loop of `settle_scores`: it scans `positions` and runs
the inner loop for the entry whose user is the winner. -/
def pay_outer (entries all : List (String × String)) (winner winner_position : String)
    (ws : Nat) (scores : List (String × Int)) : List (String × Int) × Option String :=
  match entries with
  | [] => (scores, none)
  | (user, _) :: rest =>
    if user == winner then
      match pay_inner all winner (winner_position == "east") ws scores with
      | (s1, some e) => (s1, some e)
      | (s1, none) => pay_outer rest all winner winner_position ws s1
    else pay_outer rest all winner winner_position ws scores

/-- `settle_scores` from `app.py`.  The `winner0` and `win_score0` parameters
mirror the source's `winner`/`win_score` arguments, which are never read:
`winner` is rebound from the meld table before first use.  Steps: initialize
the score table to 2000 per user when empty (an in-place room mutation),
derive each melded seat's points, pick the seat with the highest points
(`max` raises `ValueError` on an empty meld table), resolve that seat to a
user (`next(...)` raises `StopIteration` if no user holds the seat), then
transfer points; the returned room carries every mutation made before a
raise. -/
def settle_scores (rd : Room) (winner0 : Option String) (win_score0 : Nat) :
    Room × Except String (List (String × Int) × String) :=
  let scores0 := if rd.scores.isEmpty then rd.positions.map (fun p => (p.1, (2000 : Int)))
    else rd.scores
  let rd1 := { rd with scores := scores0 }
  match rd.players_melds.mapM (fun pm => (player_points pm.2).map fun s => (pm.1, s)) with
  | none => (rd1, .error "IndexError")
  | some player_scores =>
    match maxByVal player_scores with
    | none => (rd1, .error "ValueError: max() arg is an empty sequence")
    | some wp =>
      match rd.positions.find? (fun up => up.2 == wp.1) with
      | none => (rd1, .error "StopIteration")
      | some uw =>
        let res := pay_outer rd.positions rd.positions uw.1 wp.1 wp.2 scores0
        match res.2 with
        | some e => ({ rd1 with scores := res.1 }, .error e)
        | none => ({ rd1 with scores := res.1 }, .ok (res.1, uw.1))

end App

namespace App

/-- The pong/kong extraction loop of `on_claim_meld`: walk the hand once and
move the first `limit` tiles whose id matches the discard into the meld.
Returns `(meld_tiles, hand after removal)`. -/
def removeMatches (tid : Nat) (limit : Nat) (hand : List Live.Tile) :
    List Live.Tile × List Live.Tile :=
  match hand, limit with
  | [], _ => ([], [])
  | t :: rest, 0 => ([], t :: rest)
  | t :: rest, Nat.succ k =>
    if t.id == tid then
      let r := removeMatches tid k rest
      (t :: r.1, r.2)
    else
      let r := removeMatches tid (k + 1) rest
      (r.1, t :: r.2)

/-- One pass of the chi extraction loop: remove the first hand tile whose suit
matches the discard and whose parsed rank is `n`.  (The `int(t.name...)` parse
cannot raise here: the discard passed `can_claim_chi`, so its suit is one of
bamboo/characters/dots, and every hand tile of that suit has id ≤ 26 and a
numeric name.) -/
def removeFirstRank (suit : String) (n : Int) (hand : List Live.Tile) :
    Option Live.Tile × List Live.Tile :=
  match hand with
  | [] => (none, [])
  | t :: rest =>
    if t.suit == suit && parseSecondWord t.name == some n then (some t, rest)
    else
      let r := removeFirstRank suit n rest
      (r.1, t :: r.2)

/-- The chi extraction loop of `on_claim_meld`: for each needed rank, move the
first matching same-suit tile from the hand into the meld. -/
def claimChiTiles (suit : String) (needed : List Int) (hand : List Live.Tile) :
    List Live.Tile × List Live.Tile :=
  match needed with
  | [] => ([], hand)
  | n :: rest =>
    let r := removeFirstRank suit n hand
    let r2 := claimChiTiles suit rest r.2
    ((match r.1 with
      | some t => t :: r2.1
      | none => r2.1), r2.2)

/-- The tail of a valid `on_claim_meld`: store the reduced hand (the source
mutates the hand list in place, so a missing `players_hands` key keeps the
dict unchanged), pop the newest discard-pile entry if any, record the meld
under the claiming seat, hand the turn to the claimant — and note that
`last_discard` is never cleared.  Then run the win check; a win triggers
`settle_scores`, whose mutations and possible exception are carried out of
the handler. -/
def finishClaim (rd : Room) (username position : String) (last_discard : Live.Tile)
    (meld_type : String) (meld_tiles : List Live.Tile) (new_hand : List Live.Tile) :
    Room × PyResult :=
  let rd1 : Room :=
    { rd with
      players_hands := modifyKey rd.players_hands position (fun _ => new_hand)
      discard_pile := rd.discard_pile.dropLast
      players_melds := appendAtKey rd.players_melds position
        ⟨meld_type, last_discard :: meld_tiles, username⟩
      current_turn := position }
  match check_win_and_score rd1 username with
  | none => (rd1, .raised "IndexError")
  | some (false, _) => (rd1, .ok)
  | some (true, score) =>
    let s := settle_scores rd1 (some username) score
    match s.2 with
    | .error e => (s.1, .raised e)
    | .ok _ => (s.1, .ok)

/-- `on_claim_meld` from `app.py`: validate the requested meld against the
pending discard, extract the hand tiles, and finish via `finishClaim`. -/
def on_claim_meld (rd : Room) (username meld_type : String) : Room × PyResult :=
  match lookup? rd.positions username with
  | none => (rd, .emitError "Player not found.")
  | some position =>
    match rd.last_discard with
    | none => (rd, .emitError "No tile available to claim.")
    | some last_discard =>
      let hand := hand_of rd position
      if meld_type == "pong" then
        if Live.can_claim_pong hand last_discard then
          let r := removeMatches last_discard.id 2 hand
          finishClaim rd username position last_discard meld_type r.1 r.2
        else (rd, .emitError "Cannot claim pong with the last discarded tile.")
      else if meld_type == "chi" then
        match Live.can_claim_chi hand last_discard with
        | (true, some sequence) =>
          match parseSecondWord last_discard.name with
          | some r0 =>
            let needed := sequence.filter fun n => !(n == r0)
            let r := claimChiTiles last_discard.suit needed hand
            finishClaim rd username position last_discard meld_type r.1 r.2
          | none => (rd, .raised "ValueError")
        | _ => (rd, .emitError "Cannot claim chi with the last discarded tile.")
      else if meld_type == "kong" then
        if Live.can_claim_kong hand last_discard then
          let r := removeMatches last_discard.id 3 hand
          finishClaim rd username position last_discard meld_type r.1 r.2
        else (rd, .emitError "Cannot claim kong with the last discarded tile.")
      else (rd, .emitError "Invalid meld type.")

/-- `on_draw_tile` from `app.py`.  On an empty deck the handler calls
`settle_scores` (with its score mutations) and then evaluates `rd["room"]` as
the emit target — a key the `rooms[room_id]` dict (created in
`create_room_route` with exactly the keys human_players, bots, positions,
sids, game_started, game_state, scores, and never extended) does not have, so
the branch always raises: `ValueError`/`StopIteration`/`KeyError` out of
settlement, or `KeyError: room` after a successful settlement.  With tiles
remaining, the front tile is popped and appended to the drawer's hand
(`players_hands[pos]` raises `KeyError` if the seat is missing — after the
deck was already popped). -/
def on_draw_tile (rd : Room) (user : String) : Room × PyResult :=
  match lookup? rd.positions user with
  | none => (rd, .raised "KeyError")
  | some pos =>
    if ¬(pos == rd.current_turn) then (rd, .emitError "It is not your turn.")
    else
      match rd.remaining_deck with
      | [] =>
        let s := settle_scores rd (some user) 0
        match s.2 with
        | .error e => (s.1, .raised e)
        | .ok _ => (s.1, .raised "KeyError: room")
      | tile :: rest =>
        if (lookup? rd.players_hands pos).isSome then
          ({ rd with
              remaining_deck := rest
              players_hands := modifyKey rd.players_hands pos (· ++ [tile]) }, .ok)
        else ({ rd with remaining_deck := rest }, .raised "KeyError")

end App

namespace Mcts

/-- `MCTSConfig` from `game_logic/mcts.py`.  Only the iteration budget is
modelled: `max_time_per_move` is a wall-clock cutoff that can only stop the
loop earlier (and never fires when the budget is 0), and
`exploration_constant` feeds the floating-point UCB1 selection, which the
embedding abstracts by an oracle choice (see `iterOnce`). -/
structure MCTSConfig where
  num_simulations : Nat
deriving Repr

/-- The search tree of `MCTSNode`s: the source links nodes by `parent`
pointers; the embedding stores each child (with its inducing action) inside
its parent and performs backpropagation on the unwind of `iterOnce`. -/
inductive Tree (σ α : Type) : Type where
  | node (state : σ) (visits : Nat) (value : ℚ) (untried : List α)
      (children : List (α × Tree σ α))

/-- The `visits` field. -/
def Tree.visits {σ α : Type} : Tree σ α → Nat
  | .node _ v _ _ _ => v

/-- The `children` field. -/
def Tree.children {σ α : Type} : Tree σ α → List (α × Tree σ α)
  | .node _ _ _ _ cs => cs

/-- One iteration of the `while` loop in `MCTS.get_best_action`
(selection → expansion → simulation → backpropagation).  Selection descends
while a node has no untried actions but has children; the child chosen by the
floating-point UCB1 argmax — not expressible over `ℚ` — and the
`random.choice` of `rollout_policy` are both modelled by an oracle of
indices, so everything proved about the engine holds for every oracle.
Backpropagation (`MCTS._backpropagate`) adds the same un-negated reward at
every node on the walk back to the root.  Returns the updated tree, the
remaining oracle, and the reward. -/
def iterOnce {σ α : Type} [DecidableEq α] (get_legal_moves : σ → List α)
    (apply_move : σ → α → σ) (simulate : σ → ℚ) :
    Tree σ α → List Nat → Tree σ α × List Nat × ℚ
  | .node s v val (a0 :: rest) children, oracle =>
    let pick := oracle.headD 0 % (a0 :: rest).length
    let action := (a0 :: rest).getD pick a0
    let new_state := apply_move s action
    let reward := simulate new_state
    let child : Tree σ α := .node new_state 1 reward (get_legal_moves new_state) []
    (.node s (v + 1) (val + reward) ((a0 :: rest).erase action)
      (children ++ [(action, child)]), oracle.tail, reward)
  | .node s v val [] [], oracle =>
    let reward := simulate s
    (.node s (v + 1) (val + reward) [] [], oracle.tail, reward)
  | .node s v val [] (c0 :: cs), oracle =>
    let pick := oracle.headD 0 % (c0 :: cs).length
    have hpick : pick < (c0 :: cs).length := Nat.mod_lt _ (by simp)
    let chosen := (c0 :: cs).get ⟨pick, hpick⟩
    let r := iterOnce get_legal_moves apply_move simulate chosen.2 oracle.tail
    (.node s (v + 1) (val + r.2.2) [] ((c0 :: cs).set pick (chosen.1, r.1)),
      r.2.1, r.2.2)
  termination_by t _ => sizeOf t
  decreasing_by
    have hmem : (c0 :: cs)[oracle.headD 0 % (c0 :: cs).length] ∈ c0 :: cs :=
      List.getElem_mem hpick
    have h1 : sizeOf ((c0 :: cs)[oracle.headD 0 % (c0 :: cs).length]) < sizeOf (c0 :: cs) :=
      List.sizeOf_lt_of_mem hmem
    have h2 : sizeOf ((c0 :: cs)[oracle.headD 0 % (c0 :: cs).length]).2 <
        sizeOf ((c0 :: cs)[oracle.headD 0 % (c0 :: cs).length]) := by
      obtain ⟨x, y⟩ := (c0 :: cs)[oracle.headD 0 % (c0 :: cs).length]
      simp only [Prod.mk.sizeOf_spec]
      omega
    simp only [Tree.node.sizeOf_spec, List.get_eq_getElem]
    omega

/-- The iteration loop `while simulations < self.config.num_simulations and
time... < max_time`: the wall-clock bound can only stop the loop earlier and
is not modelled; with budget 0 the loop body never runs in either
semantics. -/
def runIters {σ α : Type} [DecidableEq α] (get_legal_moves : σ → List α)
    (apply_move : σ → α → σ) (simulate : σ → ℚ) :
    Nat → Tree σ α → List Nat → Tree σ α
  | 0, t, _ => t
  | Nat.succ n, t, oracle =>
    let r := iterOnce get_legal_moves apply_move simulate t oracle
    runIters get_legal_moves apply_move simulate n r.1 r.2.1

/-- `max(root.children, key=lambda c: c.visits)`: the first child with the
maximal visit count; `none` on an empty list models the raised
`ValueError`. -/
def maxByVisits {σ α : Type} (children : List (α × Tree σ α)) :
    Option (α × Tree σ α) :=
  match children with
  | [] => none
  | c :: cs => some (cs.foldl (fun best y => if best.2.visits < y.2.visits then y else best) c)

/-- `MCTS.get_best_action` from `game_logic/mcts.py`: build the root, run the
budgeted loop, then take `max(root.children, ...)` — which raises
`ValueError` whenever the loop produced no child (for example with
`num_simulations = 0`).  There is no fallback in this implementation.  The
returned `stats` dict is presentation-only and not modelled. -/
def get_best_action {σ α : Type} [DecidableEq α] (config : MCTSConfig) (state : σ)
    (get_legal_moves : σ → List α) (apply_move : σ → α → σ) (simulate : σ → ℚ)
    (oracle : List Nat) : Except String α :=
  let root : Tree σ α := .node state 0 0 (get_legal_moves state) []
  let final := runIters get_legal_moves apply_move simulate config.num_simulations root oracle
  match maxByVisits final.children with
  | none => .error "ValueError: max() arg is an empty sequence"
  | some best => .ok best.1

/-- The `visits`/`value` statistics of one node, for stating backpropagation
in isolation. -/
structure NodeStats where
  visits : Nat
  value : ℚ
deriving DecidableEq, Repr

/-- `MCTS._backpropagate` from `game_logic/mcts.py`: `path` lists the node
statistics along the parent chain from the evaluated node to the root; the
loop increments every visit count and adds the SAME un-negated reward at
every node. -/
def backpropagate (path : List NodeStats) (reward : ℚ) : List NodeStats :=
  path.map fun n => ⟨n.visits + 1, n.value + reward⟩

end Mcts

/-- Modelled from the spec (§4.5 Backpropagation): "walk back to the root,
incrementing visit count and adding the reward at each node, negating the
reward at each level (negamax convention)".  Used to compare the two code
variants against the specified behaviour. -/
def negamaxBackprop_spec (path : List Mcts.NodeStats) (reward : ℚ) : List Mcts.NodeStats :=
  match path with
  | [] => []
  | n :: rest => ⟨n.visits + 1, n.value + reward⟩ :: negamaxBackprop_spec rest (-reward)

namespace MahjongMCTS

/-- A move dict of `mahjong_mcts.py` (`{'type': ..., 'tile': ...}`); the
`copy.deepcopy(tile)` calls in the source copy immutable tile values. -/
structure Move where
  type : String
  tile : Live.Tile
deriving DecidableEq, Repr

/-- `_get_legal_moves` from `mahjong_mcts.py` over the `hand` and
`last_discard` components of the search state (the other dict entries are not
read): one discard move per hand tile, then pong/chi/kong claims when the
respective predicate approves the pending discard. -/
def get_legal_moves (hand : List Live.Tile) (last_discard : Option Live.Tile) :
    List Move :=
  (hand.map fun tile => Move.mk "discard" tile) ++
    match last_discard with
    | none => []
    | some ld =>
      (if Live.can_claim_pong hand ld then [Move.mk "pong" ld] else []) ++
        (if (Live.can_claim_chi hand ld).1 then [Move.mk "chi" ld] else []) ++
          (if Live.can_claim_kong hand ld then [Move.mk "kong" ld] else [])

/-- `_get_meld_tiles` from `mahjong_mcts.py`: the first two/three hand tiles
matching the move's tile id (pong/kong), or the first two same-suit tiles
(the source's simplified chi). -/
def get_meld_tiles (hand : List Live.Tile) (move : Move) : List Live.Tile :=
  if move.type == "pong" then (hand.filter fun t => t.id == move.tile.id).take 2
  else if move.type == "kong" then (hand.filter fun t => t.id == move.tile.id).take 3
  else if move.type == "chi" then (hand.filter fun t => t.suit == move.tile.suit).take 2
  else []

/-- `next((t for t in hand if t.id == tile_id), None)` followed by
`hand.remove(tile_to_remove)`: drop the first tile with the id, keep the hand
unchanged when no tile matches. -/
def removeFirstById (tid : Nat) (hand : List Live.Tile) : List Live.Tile :=
  match hand with
  | [] => []
  | t :: rest => if t.id == tid then rest else t :: removeFirstById tid rest

/-- Heap objects: the mutable collections reachable from a search state. -/
inductive Obj where
  | tiles (l : List Live.Tile)
  | melds (l : List (String × List Live.Tile))
deriving DecidableEq, Repr

/-- An addressed store of mutable Python objects with an allocation
counter — fresh allocations (`copy.deepcopy`) receive addresses from `next`
upward, so they can never alias an existing object. -/
structure Heap where
  data : Nat → Obj
  next : Nat

/-- Read a tile list (type confusion cannot occur in states the program
builds and defaults to `[]`). -/
def Heap.tilesAt (h : Heap) (a : Nat) : List Live.Tile :=
  match h.data a with
  | .tiles l => l
  | _ => []

/-- Read the meld list. -/
def Heap.meldsAt (h : Heap) (a : Nat) : List (String × List Live.Tile) :=
  match h.data a with
  | .melds l => l
  | _ => []

/-- Overwrite the object at an address (in-place list/dict mutation). -/
def Heap.set (h : Heap) (a : Nat) (o : Obj) : Heap :=
  ⟨fun x => if x = a then o else h.data x, h.next⟩

/-- Allocate a fresh object at address `next`. -/
def Heap.alloc (h : Heap) (o : Obj) : Heap × Nat :=
  (⟨fun x => if x = h.next then o else h.data x, h.next + 1⟩, h.next)

/-- The search-state dict built by `_create_state_representation`: `hand`,
`remaining_deck` and `melds` are references to mutable lists; `last_discard`
holds an immutable tile value and `position` a string.  The meld entries the
search adds are `{'type': ..., 'tiles': [...]}` dicts, stored here as
string-keyed pairs. -/
structure SState where
  hand : Nat
  last_discard : Option Live.Tile
  remaining_deck : Nat
  position : String
  melds : Nat
deriving Repr

/-- `_apply_move` from `mahjong_mcts.py` under explicit heap semantics:
`new_state = copy.deepcopy(state)` allocates fresh copies of the three
referenced collections, every subsequent mutation targets only those fresh
addresses, and the final `new_state['hand'] = hand` rebinds the key to the
list it already holds.  A discard drops the first hand tile with the move's
id (if any) and records it as the new last discard; a meld claim removes the
meld tiles and — only if still present — the claimed tile itself, then
appends the meld record. -/
def apply_move (h : Heap) (s : SState) (move : Move) : Heap × SState :=
  let hand0 := h.tilesAt s.hand
  let deck0 := h.tilesAt s.remaining_deck
  let melds0 := h.meldsAt s.melds
  let a1 := h.alloc (.tiles hand0)
  let a2 := a1.1.alloc (.tiles deck0)
  let a3 := a2.1.alloc (.melds melds0)
  let h3 := a3.1
  let s1 : SState :=
    { hand := a1.2, last_discard := s.last_discard, remaining_deck := a2.2,
      position := s.position, melds := a3.2 }
  if move.type == "discard" then
    match hand0.find? fun t => t.id == move.tile.id with
    | none => (h3, s1)
    | some t =>
      (h3.set a1.2 (.tiles (removeFirstById move.tile.id hand0)),
        { s1 with last_discard := some t })
  else if move.type == "pong" || move.type == "chi" || move.type == "kong" then
    let meld_tiles := get_meld_tiles hand0 move
    let hand1 := meld_tiles.foldl (fun acc t => acc.erase t) hand0
    let hand2 := if move.tile ∈ hand1 then hand1.erase move.tile else hand1
    ((h3.set a1.2 (.tiles hand2)).set a3.2
        (.melds (melds0 ++ [(move.type, meld_tiles ++ [move.tile])])), s1)
  else (h3, s1)

end MahjongMCTS

namespace MasterMcts

/-- The search-state dict used by `MahjongGame-master/game_logic/mcts.py`
(value level; the aliasing of its shallow copies is modelled separately in
`MasterHeap`). -/
structure MState where
  current_hand : List Master.Tile
  discard_pile : List Master.Tile
  melds : List (String × List Master.Tile)
  last_discard : Option Master.Tile
deriving DecidableEq, Repr

/-- `_get_available_actions`: one discard action per hand tile, then claim
actions when a discard is pending.  Note the source tests
`if can_claim_chi(hand, last_discard):` on the returned TUPLE, which is
always truthy, so the chi action is appended unconditionally.  The
`try/except` wrapper cannot fire: no statement in the body raises for the
states the engine builds. -/
def get_available_actions (s : MState) : List (String × Master.Tile) :=
  (s.current_hand.map fun tile => ("discard", tile)) ++
    match s.last_discard with
    | none => []
    | some ld =>
      (if Master.can_claim_pong s.current_hand ld then [("pong", ld)] else []) ++
        [("chi", ld)] ++
          (if Master.can_claim_kong s.current_hand ld then [("kong", ld)] else [])

/-- The removal loop of the master `_apply_action`: pop the first hand tile
matching the action tile's id and suit, or leave the hand unchanged when
nothing matches (the claimed discard need not be in the hand). -/
def removeFirstMatch (tile : Master.Tile) (hand : List Master.Tile) :
    List Master.Tile :=
  match hand with
  | [] => []
  | t :: rest =>
    if t.id == tile.id && t.suit == tile.suit then rest
    else t :: removeFirstMatch tile rest

/-- `if action_type not in new_state["melds"]: ... = []` followed by
`append(tile)`. -/
def appendMeld (melds : List (String × List Master.Tile)) (k : String)
    (t : Master.Tile) : List (String × List Master.Tile) :=
  if (App.lookup? melds k).isSome then App.modifyKey melds k (· ++ [t])
  else melds ++ [(k, [t])]

/-- `_apply_action` at value level: its effect on the state contents.  A
discard removes the first matching hand tile (if any) and appends the tile to
the discard pile; a pong/chi/kong claim removes ONE matching hand tile and
appends the tile under the meld type; any other action type leaves the state
unchanged (and the `except` branch returning `state` is unreachable). -/
def apply_action (s : MState) (a : String × Master.Tile) : MState :=
  if a.1 == "discard" then
    { s with
      current_hand := removeFirstMatch a.2 s.current_hand
      discard_pile := s.discard_pile ++ [a.2] }
  else if a.1 == "pong" || a.1 == "chi" || a.1 == "kong" then
    { s with
      current_hand := removeFirstMatch a.2 s.current_hand
      melds := appendMeld s.melds a.1 a.2 }
  else s

/-- The neighbour bonus inside `_evaluate_state`: 0.1 per neighbouring rank
(id distance 1 or 2) present in the hand; Python's `tile.id - 2` may be
negative, hence the `Int` comparison. -/
def neighborBonus (hand : List Master.Tile) (tid : Int) : ℚ :=
  ((([tid - 2, tid - 1, tid + 1, tid + 2].filter fun nb =>
      hand.any fun t => (t.id : Int) == nb).length : ℚ)) * (1 / 10)

/-- `_evaluate_state` from the master engine: 0.2 per copy (counting the tile
itself) plus the neighbour bonus for suited ids, normalized by 10 and clamped
to `[-1, 1]`.  The bounded evaluation cache is pure memoization of this
deterministic function (its key, the sorted multiset of (id, suit) pairs,
determines the hand's score), so it is semantically transparent and not
modelled; the float arithmetic is modelled exactly over `ℚ`. -/
def evaluate_state (s : MState) : ℚ :=
  let hand := s.current_hand
  let score := hand.foldl
    (fun acc tile =>
      acc + ((hand.filter fun t => t.id == tile.id).length : ℚ) * (2 / 10) +
        (if tile.id ≤ 26 then neighborBonus hand (tile.id : Int) else 0))
    0
  max (-1) (min 1 (score / 10))

/-- `_simulate_random_playout`: walk random actions until the hand empties or
no action exists, then evaluate.  The Python loop can run forever (a claim
action whose tile is not in the hand removes nothing), so the embedding
bounds the walk by explicit `fuel`; every claim proved below holds for all
fuels.  The shallow `state.copy()` at entry is modelled at value level. -/
def simulate_random_playout (fuel : Nat) (oracle : List Nat) (s : MState) : ℚ :=
  match fuel with
  | 0 => evaluate_state s
  | Nat.succ f =>
    if s.current_hand.isEmpty then evaluate_state s
    else
      match get_available_actions s with
      | [] => evaluate_state s
      | a0 :: rest =>
        let pick := oracle.headD 0 % (a0 :: rest).length
        let a := (a0 :: rest).getD pick a0
        simulate_random_playout f oracle.tail (apply_action s a)

/-- The per-tile score of `_fallback_heuristic`: copy count plus 1 per
neighbouring rank present (suited ids only). -/
def tile_heuristic_score (hand : List Master.Tile) (tile : Master.Tile) : Int :=
  ((hand.filter fun t => t.id == tile.id).length : Int) +
    (if tile.id ≤ 26 then
      (([(tile.id : Int) - 2, (tile.id : Int) - 1, (tile.id : Int) + 1,
          (tile.id : Int) + 2].filter fun nb =>
            hand.any fun t => (t.id : Int) == nb).length : Int)
    else 0)

/-- `min(scores.items(), key=lambda x: x[1])`: the first entry with the
minimal value (the dict is keyed by tile objects, so it has one entry per
hand position, in hand order). -/
def minByVal {α : Type} (l : List (α × Int)) : Option (α × Int) :=
  match l with
  | [] => none
  | x :: xs => some (xs.foldl (fun best y => if y.2 < best.2 then y else best) x)

/-- `_fallback_heuristic`: discard the first lowest-scoring hand tile.  On an
empty hand its own `ValueError` is caught and the last-resort
`state["current_hand"][0]` raises `IndexError`; the `if not scores` branch is
unreachable for a non-empty hand but kept. -/
def fallback_heuristic (s : MState) : Except String (String × Master.Tile) :=
  match s.current_hand with
  | [] => .error "IndexError"
  | t0 :: _ =>
    match minByVal (s.current_hand.map fun tile =>
        (tile, tile_heuristic_score s.current_hand tile)) with
    | none => .ok ("discard", t0)
    | some best => .ok ("discard", best.1)

/-- One iteration of the master `get_best_action` loop: same
selection/expansion shape as `Mcts.iterOnce` (UCB1 argmax and
`random.choice` modelled by the oracle), but the simulation is the internal
random playout and the inline backpropagation NEGATES the value at each step
up the chain (`value = -value  # Negamax style`): a node adds `r`, its parent
`-r`, and so on — here realized by negating the recursive call's
contribution on the unwind. -/
def iterOnceMaster (fuel : Nat) :
    Mcts.Tree MState (String × Master.Tile) → List Nat →
      Mcts.Tree MState (String × Master.Tile) × List Nat × ℚ
  | .node s v val (a0 :: rest) children, oracle =>
    let pick := oracle.headD 0 % (a0 :: rest).length
    let action := (a0 :: rest).getD pick a0
    let new_state := apply_action s action
    let reward := simulate_random_playout fuel oracle.tail new_state
    let child : Mcts.Tree MState (String × Master.Tile) :=
      .node new_state 1 reward (get_available_actions new_state) []
    (.node s (v + 1) (val + (-reward)) ((a0 :: rest).erase action)
      (children ++ [(action, child)]), oracle.tail, -reward)
  | .node s v val [] [], oracle =>
    let reward := simulate_random_playout fuel oracle.tail s
    (.node s (v + 1) (val + reward) [] [], oracle.tail, reward)
  | .node s v val [] (c0 :: cs), oracle =>
    let pick := oracle.headD 0 % (c0 :: cs).length
    have hpick : pick < (c0 :: cs).length := Nat.mod_lt _ (by simp)
    let chosen := (c0 :: cs).get ⟨pick, hpick⟩
    let r := iterOnceMaster fuel chosen.2 oracle.tail
    (.node s (v + 1) (val + (-r.2.2)) [] ((c0 :: cs).set pick (chosen.1, r.1)),
      r.2.1, -r.2.2)
  termination_by t _ => sizeOf t
  decreasing_by
    have hmem : (c0 :: cs)[oracle.headD 0 % (c0 :: cs).length] ∈ c0 :: cs :=
      List.getElem_mem hpick
    have h1 : sizeOf ((c0 :: cs)[oracle.headD 0 % (c0 :: cs).length]) < sizeOf (c0 :: cs) :=
      List.sizeOf_lt_of_mem hmem
    have h2 : sizeOf ((c0 :: cs)[oracle.headD 0 % (c0 :: cs).length]).2 <
        sizeOf ((c0 :: cs)[oracle.headD 0 % (c0 :: cs).length]) := by
      obtain ⟨x, y⟩ := (c0 :: cs)[oracle.headD 0 % (c0 :: cs).length]
      simp only [Prod.mk.sizeOf_spec]
      omega
    simp only [Mcts.Tree.node.sizeOf_spec, List.get_eq_getElem]
    omega

/-- The `for i in range(self.max_iterations)` loop of the master engine. -/
def runItersMaster (fuel : Nat) :
    Nat → Mcts.Tree MState (String × Master.Tile) → List Nat →
      Mcts.Tree MState (String × Master.Tile)
  | 0, t, _ => t
  | Nat.succ n, t, oracle =>
    let r := iterOnceMaster fuel t oracle
    runItersMaster fuel n r.1 r.2.1

/-- `get_best_action` from `MahjongGame-master/game_logic/mcts.py`: raise
`ValueError` on an empty hand, fall back to the heuristic when the root has
no actions or (after the loop) no children, otherwise return the most visited
child's action.  The `try/except` wrapper is dead in the embedding because
the modelled loop body is total. -/
def get_best_action (max_iterations : Nat) (s : MState) (oracle : List Nat)
    (fuel : Nat) : Except String (String × Master.Tile) :=
  if s.current_hand.isEmpty then .error "ValueError: No tiles in hand"
  else
    let untried := get_available_actions s
    if untried.isEmpty then fallback_heuristic s
    else
      let root : Mcts.Tree MState (String × Master.Tile) := .node s 0 0 untried []
      let final := runItersMaster fuel max_iterations root oracle
      match Mcts.maxByVisits final.children with
      | none => fallback_heuristic s
      | some best => .ok best.1

/-- The inline backpropagation loop of the master `get_best_action`
(`while node is not None: node.update(value); node = node.parent;
value = -value`): `path` lists the node statistics from the evaluated node up
to the root; the added value flips sign at each level. -/
def backpropagate_inline (path : List Mcts.NodeStats) (value : ℚ) :
    List Mcts.NodeStats :=
  match path with
  | [] => []
  | n :: rest => ⟨n.visits + 1, n.value + value⟩ :: backpropagate_inline rest (-value)

end MasterMcts

namespace MasterHeap

/-- Heap objects for the master search state: tile lists and the meld dict. -/
inductive Obj where
  | tiles (l : List Master.Tile)
  | meldMap (m : List (String × List Master.Tile))
deriving DecidableEq, Repr

/-- Addressed store with an allocation counter (as in `MahjongMCTS.Heap`). -/
structure Heap where
  data : Nat → Obj
  next : Nat

/-- Read a tile list. -/
def Heap.tilesAt (h : Heap) (a : Nat) : List Master.Tile :=
  match h.data a with
  | .tiles l => l
  | _ => []

/-- Read the meld dict. -/
def Heap.meldMapAt (h : Heap) (a : Nat) : List (String × List Master.Tile) :=
  match h.data a with
  | .meldMap m => m
  | _ => []

/-- Overwrite the object at an address. -/
def Heap.set (h : Heap) (a : Nat) (o : Obj) : Heap :=
  ⟨fun x => if x = a then o else h.data x, h.next⟩

/-- The references held by a master search-state dict. -/
structure MRef where
  current_hand : Nat
  discard_pile : Nat
  melds : Nat
  last_discard : Option Master.Tile
deriving Repr

/-- `_apply_action` from `MahjongGame-master/game_logic/mcts.py` under
explicit heap semantics: `new_state = state.copy()` is a SHALLOW dict copy,
so `new_state` holds the same list/dict references as `state`, and every
mutation below writes to the input state's own objects.  Returns the heap
after the call together with the returned state, whose references coincide
with the input's. -/
def apply_action (h : Heap) (s : MRef) (a : String × Master.Tile) : Heap × MRef :=
  let hand0 := h.tilesAt s.current_hand
  if a.1 == "discard" then
    let h1 := h.set s.current_hand (.tiles (MasterMcts.removeFirstMatch a.2 hand0))
    (h1.set s.discard_pile (.tiles (h1.tilesAt s.discard_pile ++ [a.2])), s)
  else if a.1 == "pong" || a.1 == "chi" || a.1 == "kong" then
    let h1 := h.set s.current_hand (.tiles (MasterMcts.removeFirstMatch a.2 hand0))
    (h1.set s.melds (.meldMap (MasterMcts.appendMeld (h1.meldMapAt s.melds) a.1 a.2)), s)
  else (h, s)

end MasterHeap

namespace Ex

/-- A room in which "bob" (east seat) can pong the pending discard of tile 5:
his hand holds two copies. -/
def claimRoom : App.Room :=
  { positions := [("bob", "east")]
    players_hands := [("east", [Live.Tile.mk 5, Live.Tile.mk 5])]
    remaining_deck := []
    discard_pile := [Live.Tile.mk 5]
    last_discard := some (Live.Tile.mk 5)
    current_turn := "north"
    players_melds := []
    scores := [("bob", 2000)] }

/-- A four-seat room with an empty deck and one recorded pong (tile 5, east
seat); it is north's ("alice") turn. -/
def drawRoomMeld : App.Room :=
  { positions := [("alice", "north"), ("bea", "east"), ("carl", "south"), ("dora", "west")]
    players_hands :=
      [("north", [Live.Tile.mk 1]), ("east", [Live.Tile.mk 2]),
        ("south", [Live.Tile.mk 3]), ("west", [Live.Tile.mk 4])]
    remaining_deck := []
    discard_pile := []
    last_discard := none
    current_turn := "north"
    players_melds := [("east", [⟨"pong", [Live.Tile.mk 5, Live.Tile.mk 5, Live.Tile.mk 5], "bea"⟩])]
    scores := [("alice", 2000), ("bea", 2000), ("carl", 2000), ("dora", 2000)] }

/-- The same room before any meld was recorded (the state at game start). -/
def drawRoomNoMeld : App.Room := { drawRoomMeld with players_melds := [] }

/-- A room in which "bob" (east seat) holds a winning position: four pong
melds (12 tiles) plus a pair of tile 7 in hand gives a total of 14. -/
def winRoom : App.Room :=
  { positions := [("bob", "east")]
    players_hands := [("east", [Live.Tile.mk 7, Live.Tile.mk 7])]
    remaining_deck := []
    discard_pile := []
    last_discard := none
    current_turn := "east"
    players_melds :=
      [("east",
        [⟨"pong", [Live.Tile.mk 0, Live.Tile.mk 0, Live.Tile.mk 0], "bob"⟩,
          ⟨"pong", [Live.Tile.mk 1, Live.Tile.mk 1, Live.Tile.mk 1], "bob"⟩,
          ⟨"pong", [Live.Tile.mk 2, Live.Tile.mk 2, Live.Tile.mk 2], "bob"⟩,
          ⟨"pong", [Live.Tile.mk 3, Live.Tile.mk 3, Live.Tile.mk 3], "bob"⟩])]
    scores := [("bob", 2000)] }

/-- A one-tile master search state for the zero-budget fallback witness. -/
def mstate : MasterMcts.MState :=
  { current_hand := [Master.Tile.mk 3], discard_pile := [], melds := [], last_discard := none }

/-- A heap for the master aliasing counterexample: address 0 holds the hand
`[tile 0, tile 1]`, address 1 the empty discard pile, address 2 the empty
meld dict. -/
def heapM : MasterHeap.Heap :=
  { data := fun a =>
      if a = 0 then .tiles [Master.Tile.mk 0, Master.Tile.mk 1]
      else if a = 1 then .tiles []
      else if a = 2 then .meldMap []
      else .tiles []
    next := 3 }

/-- The master search state referencing `heapM`. -/
def refM : MasterHeap.MRef :=
  { current_hand := 0, discard_pile := 1, melds := 2, last_discard := none }

/-- A heap for the `_apply_move` frame witness: address 0 holds the hand,
address 1 the deck snapshot, address 2 the meld list. -/
def heapL : MahjongMCTS.Heap :=
  { data := fun a =>
      if a = 0 then .tiles [Live.Tile.mk 0, Live.Tile.mk 1]
      else if a = 1 then .tiles [Live.Tile.mk 9]
      else if a = 2 then .melds []
      else .tiles []
    next := 3 }

/-- The search state referencing `heapL`. -/
def stateL : MahjongMCTS.SState :=
  { hand := 0, last_discard := none, remaining_deck := 1, position := "east", melds := 2 }

end Ex

/-- Claim C4 (code-bug evidence): an empty-deck draw attempt never produces
the claimed draw outcome.  In `Ex.drawRoomMeld` (one recorded meld) the
settlement succeeds — transferring points — and the handler then raises
`KeyError` evaluating `rd["room"]`, a key the room dict never has; in
`Ex.drawRoomNoMeld` (no melds, the state at game start) `settle_scores`
itself raises `ValueError` taking the max of an empty meld table.  In both
rooms it is the drawer's turn and the deck is empty, yet no `game_over` with
`winner: None` is ever emitted. -/
theorem on_draw_tile_empty_deck_raises :
    (App.on_draw_tile Ex.drawRoomMeld "alice").2 = App.PyResult.raised "KeyError: room" ∧
    (App.on_draw_tile Ex.drawRoomNoMeld "alice").2 =
      App.PyResult.raised "ValueError: max() arg is an empty sequence" :=
  ⟨by decide, by decide⟩

/-- Claim C2 (counterexample): in `Ex.claimRoom` the pong claim succeeds, yet
the room after the claim still carries `last_discard = tile 5` — the claim's
"clears the last-discard slot" conjunct is false, since `on_claim_meld`
never resets the slot. -/
theorem claim_meld_keeps_last_discard :
    (App.on_claim_meld Ex.claimRoom "bob" "pong").2 = App.PyResult.ok ∧
    (App.on_claim_meld Ex.claimRoom "bob" "pong").1.last_discard = some (Live.Tile.mk 5) :=
  ⟨by decide, by decide⟩

/-- Claim C7 (counterexample): the `game_logic/mcts.py` engine with a
zero-iteration budget raises `ValueError` (max over the empty child list)
instead of falling back to a heuristic, here on a one-tile hand with the
`mahjong_mcts` legal-move enumeration (the apply/simulate callbacks are never
invoked when the budget is 0). -/
theorem mcts_zero_budget_raises :
    Mcts.get_best_action ⟨0⟩ ([Live.Tile.mk 0], (none : Option Live.Tile))
        (fun s => MahjongMCTS.get_legal_moves s.1 s.2) (fun s _ => s) (fun _ => 0) [] =
      Except.error "ValueError: max() arg is an empty sequence" := rfl

/-- Claim C8 (counterexample): `MCTS._backpropagate` of `game_logic/mcts.py`
does not negate the reward at each level — on a two-node parent chain with
reward 1 it produces values `[1, 1]`, not the negamax `[1, -1]` the spec
describes. -/
theorem backpropagate_not_negamax :
    Mcts.backpropagate [⟨0, 0⟩, ⟨0, 0⟩] 1 ≠ negamaxBackprop_spec [⟨0, 0⟩, ⟨0, 0⟩] 1 := by
  simp [Mcts.backpropagate, negamaxBackprop_spec, Mcts.NodeStats.mk.injEq]
  norm_num

/-- Claim C9 (counterexample): the master `_apply_action` mutates the state
it was given — after applying a discard to `Ex.refM`, the hand list at the
input state's own address 0 has changed (its shallow `state.copy()` shares
every nested collection with the input). -/
theorem master_apply_action_mutates_input :
    (MasterHeap.apply_action Ex.heapM Ex.refM ("discard", Master.Tile.mk 0)).1.data 0 ≠
      Ex.heapM.data 0 := by
  decide

/-- A successful dict lookup comes from an entry of the dict. -/
theorem lookup?_mem {β : Type} (m : List (String × β)) (k : String) (v : β)
    (h : App.lookup? m k = some v) : ∃ p ∈ m, p.1 = k ∧ p.2 = v := by
  induction m with
  | nil => simp [App.lookup?] at h
  | cons p rest ih =>
    unfold App.lookup? at h
    by_cases hp : p.1 == k
    · rw [if_pos hp] at h
      exact ⟨p, by simp, by simpa using hp, by simpa using h⟩
    · rw [if_neg hp] at h
      obtain ⟨q, hq, hq1, hq2⟩ := ih h
      exact ⟨q, by simp [hq], hq1, hq2⟩

/-- An `Option`-valued fold succeeds when every step does. -/
theorem foldlM_option_isSome {α β : Type} (f : β → α → Option β) (l : List α) (init : β)
    (h : ∀ acc : β, ∀ a ∈ l, (f acc a).isSome) : (l.foldlM f init).isSome := by
  induction l generalizing init with
  | nil => simp
  | cons x xs ih =>
    simp only [List.foldlM_cons]
    obtain ⟨b, hb⟩ := Option.isSome_iff_exists.mp (h init x (by simp))
    rw [hb]
    simpa using ih b (fun acc a ha => h acc a (by simp [ha]))

/-- `compute_score` cannot raise when every meld has a tile. -/
theorem compute_score_isSome (hand : List Live.Tile) (melds : List App.MeldInfo)
    (sd : Bool) (h : ∀ m ∈ melds, m.tiles ≠ []) :
    (App.compute_score hand melds sd).isSome := by
  unfold App.compute_score
  rw [Option.isSome_map']
  apply foldlM_option_isSome
  intro acc m hm
  have hm2 : m.tiles.head?.isSome := by
    cases htt : m.tiles with
    | nil => exact absurd htt (h m hm)
    | cons a b => simp
  by_cases h1 : m.meld_type == "pong"
  · simp [h1, Option.isSome_map, hm2]
  · by_cases h2 : m.meld_type == "kong" <;> simp [h1, h2, Option.isSome_map, hm2]

/-- The total-count fold of `check_win_and_score` equals the hand size plus 3
per non-kong meld plus 4 per kong meld. -/
theorem meld_total_eq (melds : List App.MeldInfo) (init : Nat) :
    melds.foldl (fun acc meld => acc + if meld.meld_type == "kong" then 4 else 3) init =
      init + 3 * (melds.filter fun m => !(m.meld_type == "kong")).length +
        4 * (melds.filter fun m => m.meld_type == "kong").length := by
  induction melds generalizing init with
  | nil => simp
  | cons m rest ih =>
    simp only [List.foldl_cons, List.filter_cons]
    rw [ih]
    by_cases h : m.meld_type == "kong" <;> simp [h] <;> omega

/-- Claim C1: for every room state and user, `check_win_and_score` reports a
win exactly when the seat's hand size plus 3 per non-kong meld plus 4 per
kong meld equals 14 and the residual hand is exactly two tiles of equal id.
The hypothesis — every recorded meld has a nonempty tile list, true of every
meld `on_claim_meld` records — rules out the `IndexError` inside the scoring
call on the win path. -/
theorem check_win_iff (rd : App.Room) (username : String)
    (hwf : ∀ pm ∈ rd.players_melds, ∀ m ∈ pm.2, m.tiles ≠ []) :
    (App.check_win_and_score rd username).map Prod.fst = some true ↔
      (App.seat_hand rd username).length +
          3 * ((App.seat_melds rd username).filter fun m => !(m.meld_type == "kong")).length +
          4 * ((App.seat_melds rd username).filter fun m => m.meld_type == "kong").length = 14 ∧
        ∃ a b, App.seat_hand rd username = [a, b] ∧ a.id = b.id := by
  have hwf2 : ∀ m ∈ App.seat_melds rd username, m.tiles ≠ [] := by
    intro m hm
    unfold App.seat_melds at hm
    cases hpos : App.lookup? rd.positions username with
    | none => simp [hpos] at hm
    | some pos =>
      cases hml : App.lookup? rd.players_melds pos with
      | none => simp [hpos, hml] at hm
      | some ms =>
        simp [hpos, hml] at hm
        obtain ⟨p, hpmem, hp1, hp2⟩ := lookup?_mem rd.players_melds pos ms hml
        exact hwf p hpmem m (hp2 ▸ hm)
  unfold App.check_win_and_score
  simp only []
  set hand := App.seat_hand rd username with hhand
  set melds := App.seat_melds rd username with hmelds
  split
  case isTrue hc =>
    rw [Bool.and_eq_true, Bool.and_eq_true] at hc
    obtain ⟨⟨htot, hlen⟩, hmatch⟩ := hc
    have htot2 := beq_iff_eq.mp htot
    have hlen2 := beq_iff_eq.mp hlen
    obtain ⟨sc, hsc⟩ := Option.isSome_iff_exists.mp (compute_score_isSome hand melds true hwf2)
    apply iff_of_true
    · rw [hsc]
      rfl
    · refine ⟨by rw [meld_total_eq] at htot2; omega, ?_⟩
      match hand, hlen2, hmatch with
      | [a, b], _, hm2 => exact ⟨a, b, rfl, by simpa using hm2⟩
  case isFalse hc =>
    apply iff_of_false
    · simp
    · rintro ⟨htot, a, b, hhand2, hab⟩
      rw [Bool.and_eq_true, Bool.and_eq_true] at hc
      apply hc
      refine ⟨⟨beq_iff_eq.mpr (by rw [meld_total_eq]; omega),
        beq_iff_eq.mpr (by rw [hhand2]; rfl)⟩, ?_⟩
      rw [hhand2]
      simpa using hab

/-- Witness for C1: in `Ex.winRoom` (four pong melds and a pair of tile 7)
the hypothesis holds and the equivalence is realized. -/
theorem check_win_iff_witness :
    (∀ pm ∈ Ex.winRoom.players_melds, ∀ m ∈ pm.2, m.tiles ≠ []) ∧
    ((App.check_win_and_score Ex.winRoom "bob").map Prod.fst = some true ↔
      (App.seat_hand Ex.winRoom "bob").length +
          3 * ((App.seat_melds Ex.winRoom "bob").filter fun m => !(m.meld_type == "kong")).length +
          4 * ((App.seat_melds Ex.winRoom "bob").filter fun m => m.meld_type == "kong").length = 14 ∧
        ∃ a b, App.seat_hand Ex.winRoom "bob" = [a, b] ∧ a.id = b.id) :=
  ⟨by decide, check_win_iff Ex.winRoom "bob" (by decide)⟩

/-- Claim C10: settlement requires at least one recorded meld — with an empty
seat-to-melds table `settle_scores` fails at `max(...)` over an empty
collection instead of returning a score table, and an empty-deck draw attempt
by the seat whose turn it is runs into exactly that failure. -/
theorem settle_requires_melds (rd : App.Room) (u : String)
    (hmelds : rd.players_melds = []) (hdeck : rd.remaining_deck = [])
    (hturn : App.lookup? rd.positions u = some rd.current_turn) :
    (App.settle_scores rd (some u) 0).2 =
      Except.error "ValueError: max() arg is an empty sequence" ∧
    (App.on_draw_tile rd u).2 =
      App.PyResult.raised "ValueError: max() arg is an empty sequence" := by
  have hsettle : ∀ w0 s0, (App.settle_scores rd w0 s0).2 =
      Except.error "ValueError: max() arg is an empty sequence" := by
    intro w0 s0
    unfold App.settle_scores
    rw [hmelds]
    simp [List.mapM.loop, App.maxByVal]
  refine ⟨hsettle _ _, ?_⟩
  unfold App.on_draw_tile
  rw [hturn, hdeck]
  simp only [beq_self_eq_true, not_true_eq_false, if_false]
  have := hsettle (some u) 0
  cases hs : App.settle_scores rd (some u) 0 with
  | mk r e =>
    rw [hs] at this
    simp at this
    simp [this]

/-- Witness for C10: the meldless empty-deck room `Ex.drawRoomNoMeld` with
drawer "alice" satisfies the hypotheses and exhibits both failures. -/
theorem settle_requires_melds_witness :
    (Ex.drawRoomNoMeld.players_melds = [] ∧ Ex.drawRoomNoMeld.remaining_deck = [] ∧
      App.lookup? Ex.drawRoomNoMeld.positions "alice" = some Ex.drawRoomNoMeld.current_turn) ∧
    (App.settle_scores Ex.drawRoomNoMeld (some "alice") 0).2 =
      Except.error "ValueError: max() arg is an empty sequence" ∧
    (App.on_draw_tile Ex.drawRoomNoMeld "alice").2 =
      App.PyResult.raised "ValueError: max() arg is an empty sequence" :=
  ⟨⟨by decide, by decide, by decide⟩,
    settle_requires_melds Ex.drawRoomNoMeld "alice" (by decide) (by decide) (by decide)⟩

/-- Claim C8 (amended): only the master engine's inline backpropagation walks
the parent chain incrementing visits and adding the reward NEGATED at each
level (the spec's negamax convention, `negamaxBackprop_spec`); the
`_backpropagate` of `game_logic/mcts.py` increments visits but adds the same
un-negated reward at every node of the walk. -/
theorem backprop_variants (path : List Mcts.NodeStats) (reward : ℚ) :
    MasterMcts.backpropagate_inline path reward = negamaxBackprop_spec path reward ∧
    Mcts.backpropagate path reward =
      path.map fun n => ⟨n.visits + 1, n.value + reward⟩ := by
  refine ⟨?_, rfl⟩
  induction path generalizing reward with
  | nil => rfl
  | cons n rest ih =>
    simp only [MasterMcts.backpropagate_inline, negamaxBackprop_spec]
    rw [ih]

/-- Claim C9 (amended): `_apply_move` of `mahjong_mcts.py` is pure with
respect to its input — `copy.deepcopy` allocates only fresh addresses, so
after applying any move the content of every pre-existing heap address, in
particular the input state's hand, melds, last-discard and deck data, is
unchanged.  (The master `_apply_action` does not share this property: see the
counterexample.) -/
theorem apply_move_frame (h : MahjongMCTS.Heap) (s : MahjongMCTS.SState)
    (m : MahjongMCTS.Move) (a : Nat) (ha : a < h.next) :
    ((MahjongMCTS.apply_move h s m).1).data a = h.data a := by
  unfold MahjongMCTS.apply_move
  simp only [MahjongMCTS.Heap.alloc, MahjongMCTS.Heap.set]
  have h0 : a ≠ h.next := by omega
  have h1 : a ≠ h.next + 1 := by omega
  have h2 : a ≠ h.next + 2 := by omega
  split
  · split
    · simp [h0, h1, h2]
    · simp [h0, h1, h2]
  · split
    · simp [h0, h1, h2]
    · simp [h0, h1, h2]

/-- Witness for C9: applying a discard to `Ex.stateL` over `Ex.heapL` leaves
the content of the input hand's address 0 unchanged. -/
theorem apply_move_frame_witness :
    0 < Ex.heapL.next ∧
    ((MahjongMCTS.apply_move Ex.heapL Ex.stateL ⟨"discard", Live.Tile.mk 0⟩).1).data 0 =
      Ex.heapL.data 0 :=
  ⟨by decide, apply_move_frame Ex.heapL Ex.stateL ⟨"discard", Live.Tile.mk 0⟩ 0 (by decide)⟩

/-- Python's `min(..., key=...)` keeps the first minimum; the fold therefore
returns the start value or a list element. -/
theorem foldl_minBy_mem {α : Type} (xs : List (α × Int)) (x : α × Int) :
    xs.foldl (fun best y => if y.2 < best.2 then y else best) x ∈ x :: xs := by
  induction xs generalizing x with
  | nil => simp
  | cons y ys ih =>
    simp only [List.foldl_cons]
    by_cases hy : y.2 < x.2
    · rw [if_pos hy]
      rcases List.mem_cons.mp (ih y) with h | h
      · simp [h]
      · simp [List.mem_cons, h]
    · rw [if_neg hy]
      rcases List.mem_cons.mp (ih x) with h | h
      · simp [h]
      · simp [List.mem_cons, h]

/-- Claim C7 (amended): only the master implementation survives a failed
search — with a zero-iteration budget and a non-empty hand its
`get_best_action` falls back to the deterministic heuristic and returns a
valid discard of a hand tile (for every oracle and playout fuel); the
`game_logic/mcts.py` engine instead raises `ValueError` out of
`max(root.children, ...)` at zero budget, for every state and every choice of
callbacks. -/
theorem zero_budget_behaviour :
    (∀ (s : MasterMcts.MState) (oracle : List Nat) (fuel : Nat),
      s.current_hand ≠ [] →
        ∃ t ∈ s.current_hand, MasterMcts.get_best_action 0 s oracle fuel =
          Except.ok ("discard", t)) ∧
    (∀ {σ α : Type} [DecidableEq α] (state : σ) (glm : σ → List α)
      (am : σ → α → σ) (sim : σ → ℚ) (oracle : List Nat),
        Mcts.get_best_action ⟨0⟩ state glm am sim oracle =
          Except.error "ValueError: max() arg is an empty sequence") := by
  constructor
  · intro s oracle fuel hne
    obtain ⟨t0, rest, hh⟩ : ∃ t0 rest, s.current_hand = t0 :: rest := by
      cases hc : s.current_hand with
      | nil => exact absurd hc hne
      | cons a b => exact ⟨a, b, rfl⟩
    have hne2 : s.current_hand.isEmpty = false := by simp [hh]
    have huntried : (MasterMcts.get_available_actions s).isEmpty = false := by
      unfold MasterMcts.get_available_actions
      rw [hh]
      simp [List.isEmpty]
    simp only [MasterMcts.get_best_action, hne2, huntried, Bool.false_eq_true, if_false,
      MasterMcts.runItersMaster, Mcts.Tree.children, Mcts.maxByVisits]
    unfold MasterMcts.fallback_heuristic
    rw [hh]
    simp only [List.map_cons, MasterMcts.minByVal]
    have hmem := foldl_minBy_mem (rest.map fun tile =>
      (tile, MasterMcts.tile_heuristic_score s.current_hand tile))
      (t0, MasterMcts.tile_heuristic_score s.current_hand t0)
    have hmem2 : (List.foldl (fun best y => if y.2 < best.2 then y else best)
        (t0, MasterMcts.tile_heuristic_score s.current_hand t0)
        (rest.map fun tile => (tile, MasterMcts.tile_heuristic_score s.current_hand tile))) ∈
        (t0 :: rest).map fun tile => (tile, MasterMcts.tile_heuristic_score s.current_hand tile) := by
      simpa using hmem
    obtain ⟨tile, htile, heq⟩ := List.mem_map.mp hmem2
    refine ⟨tile, htile, ?_⟩
    rw [hh] at heq
    rw [← heq]
  · intro σ α inst state glm am sim oracle
    rfl

/-- Witness for C7 (amended): on the one-tile state `Ex.mstate` the master
zero-budget search returns the discard of that tile. -/
theorem zero_budget_behaviour_witness :
    Ex.mstate.current_hand ≠ [] ∧
    (∃ t ∈ Ex.mstate.current_hand,
      MasterMcts.get_best_action 0 Ex.mstate [] 0 = Except.ok ("discard", t)) :=
  ⟨by decide, zero_budget_behaviour.1 Ex.mstate [] 0 (by decide)⟩

/-- Rewriting the value stored under an existing key. -/
theorem lookup?_modifyKey_self {β : Type} (m : List (String × β)) (k : String) (f : β → β)
    (v : β) (h : App.lookup? m k = some v) :
    App.lookup? (App.modifyKey m k f) k = some (f v) := by
  induction m with
  | nil => simp [App.lookup?] at h
  | cons p rest ih =>
    unfold App.lookup? at h
    unfold App.modifyKey
    by_cases hp : p.1 == k
    · rw [if_pos hp] at h
      rw [if_pos hp]
      unfold App.lookup?
      rw [if_pos hp]
      simpa using congrArg (Option.map f) h
    · rw [if_neg hp] at h
      rw [if_neg hp]
      unfold App.lookup?
      rw [if_neg hp]
      exact ih h

/-- A non-empty defaulted hand lookup is a successful lookup. -/
theorem hand_of_lookup (rd : App.Room) (pos : String) (h : App.hand_of rd pos ≠ []) :
    App.lookup? rd.players_hands pos = some (App.hand_of rd pos) := by
  unfold App.hand_of at h ⊢
  cases hl : App.lookup? rd.players_hands pos with
  | none => simp [hl] at h
  | some v => simp

/-- The pong/kong extraction loop only removes tiles. -/
theorem removeMatches_sublist (tid limit : Nat) (hand : List Live.Tile) :
    (App.removeMatches tid limit hand).2.Sublist hand := by
  induction hand generalizing limit with
  | nil => simp [App.removeMatches]
  | cons t rest ih =>
    cases limit with
    | zero => simp [App.removeMatches]
    | succ k =>
      unfold App.removeMatches
      by_cases ht : t.id == tid
      · rw [if_pos ht]
        exact (ih k).cons t
      · rw [if_neg ht]
        exact (ih (k + 1)).cons₂ t

/-- With at least `limit` matches available, the extraction loop removes
exactly `limit` tiles. -/
theorem removeMatches_length (tid limit : Nat) (hand : List Live.Tile)
    (h : limit ≤ (hand.filter fun t => t.id == tid).length) :
    (App.removeMatches tid limit hand).2.length + limit = hand.length := by
  induction hand generalizing limit with
  | nil =>
    simp at h
    simp [App.removeMatches, h]
  | cons t rest ih =>
    cases limit with
    | zero => simp [App.removeMatches]
    | succ k =>
      unfold App.removeMatches
      by_cases ht : t.id == tid
      · rw [if_pos ht]
        have hrest : k ≤ (rest.filter fun t => t.id == tid).length := by
          rw [List.filter_cons, if_pos ht] at h
          simpa using h
        have := ih k hrest
        simp only [List.length_cons]
        omega
      · rw [if_neg ht]
        have hrest : k + 1 ≤ (rest.filter fun t => t.id == tid).length := by
          rw [List.filter_cons, if_neg ht] at h
          exact h
        have := ih (k + 1) hrest
        simp only [List.length_cons]
        omega

/-- The chi extraction pass only removes tiles. -/
theorem removeFirstRank_sublist (suit : String) (n : Int) (hand : List Live.Tile) :
    (App.removeFirstRank suit n hand).2.Sublist hand := by
  induction hand with
  | nil => simp [App.removeFirstRank]
  | cons t rest ih =>
    unfold App.removeFirstRank
    by_cases ht : (t.suit == suit && parseSecondWord t.name == some n) = true
    · rw [if_pos ht]
      exact List.sublist_cons_self t rest
    · rw [if_neg ht]
      exact ih.cons₂ t

/-- With a matching tile in the hand, the chi extraction pass removes exactly
one tile. -/
theorem removeFirstRank_length (suit : String) (n : Int) (hand : List Live.Tile)
    (h : ∃ t ∈ hand, (t.suit == suit && parseSecondWord t.name == some n) = true) :
    (App.removeFirstRank suit n hand).2.length + 1 = hand.length := by
  induction hand with
  | nil => simp at h
  | cons t rest ih =>
    unfold App.removeFirstRank
    by_cases ht : (t.suit == suit && parseSecondWord t.name == some n) = true
    · rw [if_pos ht]
      simp
    · rw [if_neg ht]
      obtain ⟨u, hu, hup⟩ := h
      rcases List.mem_cons.mp hu with rfl | hu2
      · exact absurd hup ht
      · have := ih ⟨u, hu2, hup⟩
        simp only [List.length_cons]
        omega

/-- Removing a tile of rank `n` keeps a witness of a different rank `n2`. -/
theorem removeFirstRank_preserves (suit : String) (n n2 : Int) (hand : List Live.Tile)
    (hne : n ≠ n2)
    (h : ∃ t ∈ hand, (t.suit == suit && parseSecondWord t.name == some n2) = true) :
    ∃ t ∈ (App.removeFirstRank suit n hand).2,
      (t.suit == suit && parseSecondWord t.name == some n2) = true := by
  induction hand with
  | nil => simp at h
  | cons t rest ih =>
    unfold App.removeFirstRank
    by_cases ht : (t.suit == suit && parseSecondWord t.name == some n) = true
    · rw [if_pos ht]
      obtain ⟨u, hu, hup⟩ := h
      rcases List.mem_cons.mp hu with rfl | hu2
      · exfalso
        rw [Bool.and_eq_true] at ht hup
        have h1 := beq_iff_eq.mp ht.2
        have h2 := beq_iff_eq.mp hup.2
        rw [h1] at h2
        exact hne (by simpa using h2)
      · exact ⟨u, hu2, hup⟩
    · rw [if_neg ht]
      obtain ⟨u, hu, hup⟩ := h
      rcases List.mem_cons.mp hu with rfl | hu2
      · exact ⟨u, by simp, hup⟩
      · obtain ⟨w, hw, hwp⟩ := ih ⟨u, hu2, hup⟩
        exact ⟨w, by simp [hw], hwp⟩

/-- The chi extraction loop over two distinct present ranks removes exactly
two tiles and only removes tiles. -/
theorem claimChiTiles_two (suit : String) (n1 n2 : Int) (hand : List Live.Tile)
    (hne : n1 ≠ n2)
    (h1 : ∃ t ∈ hand, (t.suit == suit && parseSecondWord t.name == some n1) = true)
    (h2 : ∃ t ∈ hand, (t.suit == suit && parseSecondWord t.name == some n2) = true) :
    (App.claimChiTiles suit [n1, n2] hand).2.length + 2 = hand.length ∧
    (App.claimChiTiles suit [n1, n2] hand).2.Sublist hand := by
  have hrw : (App.claimChiTiles suit [n1, n2] hand).2 =
      (App.removeFirstRank suit n2 (App.removeFirstRank suit n1 hand).2).2 := by
    simp [App.claimChiTiles]
  rw [hrw]
  have hl1 := removeFirstRank_length suit n1 hand h1
  have hp := removeFirstRank_preserves suit n1 n2 hand hne h2
  have hl2 := removeFirstRank_length suit n2 (App.removeFirstRank suit n1 hand).2 hp
  refine ⟨by omega, ?_⟩
  exact (removeFirstRank_sublist suit n2 _).trans (removeFirstRank_sublist suit n1 hand)

/-- Membership in `hand_numbers` is existence of a same-suit hand tile with
that parsed rank. -/
theorem mem_hand_numbers (hand : List Live.Tile) (tile : Live.Tile) (n : Int) :
    n ∈ Live.hand_numbers hand tile ↔
      ∃ t ∈ hand, (t.suit == tile.suit && parseSecondWord t.name == some n) = true := by
  induction hand with
  | nil => simp [Live.hand_numbers]
  | cons t rest ih =>
    unfold Live.hand_numbers at ih ⊢
    simp only [List.foldr_cons]
    by_cases hs : t.suit == tile.suit
    · rw [if_pos hs]
      cases hp : parseSecondWord t.name with
      | none =>
        rw [ih]
        constructor
        · rintro ⟨u, hu, hup⟩
          exact ⟨u, by simp [hu], hup⟩
        · rintro ⟨u, hu, hup⟩
          rcases List.mem_cons.mp hu with rfl | hu2
          · rw [Bool.and_eq_true] at hup
            rw [hp] at hup
            simp at hup
          · exact ⟨u, hu2, hup⟩
      | some num =>
        simp only [List.mem_cons]
        constructor
        · rintro (rfl | hmem)
          · exact ⟨t, by simp, by simp [hs, hp]⟩
          · obtain ⟨u, hu, hup⟩ := ih.mp hmem
            exact ⟨u, by simp [hu], hup⟩
        · rintro ⟨u, hu, hup⟩
          rcases hu with rfl | hu2
          · rw [Bool.and_eq_true] at hup
            rw [hp] at hup
            have := beq_iff_eq.mp hup.2
            simp at this
            exact Or.inl this.symm
          · exact Or.inr (ih.mpr ⟨u, hu2, hup⟩)
    · rw [if_neg hs]
      rw [ih]
      constructor
      · rintro ⟨u, hu, hup⟩
        exact ⟨u, by simp [hu], hup⟩
      · rintro ⟨u, hu, hup⟩
        rcases List.mem_cons.mp hu with rfl | hu2
        · rw [Bool.and_eq_true] at hup
          exact absurd hup.1 hs
        · exact ⟨u, hu2, hup⟩

/-- A positive `can_claim_chi` verdict names the candidate's rank and one of
the three adjacency patterns, with the checked ranks present in the hand, in
the fixed priority order below, straddle, above. -/
theorem can_claim_chi_spec (hand : List Live.Tile) (tile : Live.Tile)
    (h : (Live.can_claim_chi hand tile).1 = true) :
    ∃ r, parseSecondWord tile.name = some r ∧
      ((((r - 2) ∈ Live.hand_numbers hand tile ∧ (r - 1) ∈ Live.hand_numbers hand tile) ∧
          Live.can_claim_chi hand tile = (true, some [r - 2, r - 1, r])) ∨
        (¬((r - 2) ∈ Live.hand_numbers hand tile ∧ (r - 1) ∈ Live.hand_numbers hand tile) ∧
          ((r - 1) ∈ Live.hand_numbers hand tile ∧ (r + 1) ∈ Live.hand_numbers hand tile) ∧
          Live.can_claim_chi hand tile = (true, some [r - 1, r, r + 1])) ∨
        (¬((r - 2) ∈ Live.hand_numbers hand tile ∧ (r - 1) ∈ Live.hand_numbers hand tile) ∧
          ¬((r - 1) ∈ Live.hand_numbers hand tile ∧ (r + 1) ∈ Live.hand_numbers hand tile) ∧
          ((r + 1) ∈ Live.hand_numbers hand tile ∧ (r + 2) ∈ Live.hand_numbers hand tile) ∧
          Live.can_claim_chi hand tile = (true, some [r, r + 1, r + 2]))) := by
  unfold Live.can_claim_chi at h ⊢
  by_cases hs : ¬(tile.suit == "bamboo" || tile.suit == "characters" || tile.suit == "dots") = true
  · rw [if_pos hs] at h
    simp at h
  · rw [if_neg hs] at h ⊢
    cases hparse : parseSecondWord tile.name with
    | none =>
      rw [hparse] at h
      simp at h
    | some r =>
      rw [hparse] at h
      simp only [] at h ⊢
      refine ⟨r, rfl, ?_⟩
      by_cases hA : (r - 2) ∈ Live.hand_numbers hand tile ∧ (r - 1) ∈ Live.hand_numbers hand tile
      · left
        rw [if_pos hA]
        exact ⟨hA, rfl⟩
      · rw [if_neg hA] at h ⊢
        by_cases hB : (r - 1) ∈ Live.hand_numbers hand tile ∧ (r + 1) ∈ Live.hand_numbers hand tile
        · right; left
          rw [if_pos hB]
          exact ⟨hA, hB, rfl⟩
        · rw [if_neg hB] at h ⊢
          by_cases hC : (r + 1) ∈ Live.hand_numbers hand tile ∧ (r + 2) ∈ Live.hand_numbers hand tile
          · right; right
            rw [if_pos hC]
            exact ⟨hA, hB, hC, rfl⟩
          · rw [if_neg hC] at h
            simp at h

/-- `settle_scores` mutates only the score table of the room. -/
theorem settle_scores_room (rd : App.Room) (w0 : Option String) (s0 : Nat) :
    ∃ sc, (App.settle_scores rd w0 s0).1 = { rd with scores := sc } := by
  simp only [App.settle_scores]
  repeat' split
  all_goals exact ⟨_, rfl⟩

/-- The room after `finishClaim`: reduced hand stored under the seat, newest
discard-pile entry popped, meld recorded, turn handed to the claimant, and
only the score table possibly touched by the win-check tail —
`last_discard` in particular is untouched. -/
theorem finishClaim_room (rd : App.Room) (username pos : String) (d : Live.Tile)
    (mt : String) (mtiles new_hand : List Live.Tile) :
    ∃ sc, (App.finishClaim rd username pos d mt mtiles new_hand).1 =
      { rd with
        players_hands := App.modifyKey rd.players_hands pos (fun _ => new_hand)
        discard_pile := rd.discard_pile.dropLast
        players_melds := App.appendAtKey rd.players_melds pos ⟨mt, d :: mtiles, username⟩
        current_turn := pos
        scores := sc } := by
  simp only [App.finishClaim]
  split
  · exact ⟨_, rfl⟩
  · exact ⟨_, rfl⟩
  · next score heq =>
    obtain ⟨sc, hsc⟩ := settle_scores_room
      { rd with
        players_hands := App.modifyKey rd.players_hands pos (fun _ => new_hand)
        discard_pile := rd.discard_pile.dropLast
        players_melds := App.appendAtKey rd.players_melds pos ⟨mt, d :: mtiles, username⟩
        current_turn := pos } (some username) score
    split
    · exact ⟨sc, hsc⟩
    · exact ⟨sc, hsc⟩

/-- Observable effects of `finishClaim` needed for the claim-application
claim. -/
theorem finishClaim_effects (rd : App.Room) (username pos : String) (d : Live.Tile)
    (mt : String) (mtiles new_hand : List Live.Tile)
    (hl : App.lookup? rd.players_hands pos = some (App.hand_of rd pos)) :
    App.lookup? (App.finishClaim rd username pos d mt mtiles new_hand).1.players_hands pos =
      some new_hand ∧
    (App.finishClaim rd username pos d mt mtiles new_hand).1.discard_pile =
      rd.discard_pile.dropLast ∧
    (App.finishClaim rd username pos d mt mtiles new_hand).1.last_discard =
      rd.last_discard := by
  obtain ⟨sc, hsc⟩ := finishClaim_room rd username pos d mt mtiles new_hand
  rw [hsc]
  exact ⟨lookup?_modifyKey_self rd.players_hands pos (fun _ => new_hand) _ hl, rfl, rfl⟩

/-- Claim C2 (amended): a supported claim on the pending discard succeeds and
reduces the claiming seat's hand by exactly 2 (pong), 3 (kong) or 2 (chi)
tiles; the new hand is a sublist of the old one (the discarded tile is never
re-added); the discard pile's most recent entry is removed — but the
last-discard slot is NOT cleared: it still holds the claimed tile. -/
theorem claim_meld_effects (rd : App.Room) (username pos : String) (d : Live.Tile)
    (meld_type : String) (k : Nat)
    (hpos : App.lookup? rd.positions username = some pos)
    (hld : rd.last_discard = some d)
    (hsupp :
      (meld_type = "pong" ∧ Live.can_claim_pong (App.hand_of rd pos) d = true ∧ k = 2) ∨
      (meld_type = "kong" ∧ Live.can_claim_kong (App.hand_of rd pos) d = true ∧ k = 3) ∨
      (meld_type = "chi" ∧ (Live.can_claim_chi (App.hand_of rd pos) d).1 = true ∧ k = 2)) :
    ∃ new_hand,
      App.lookup? (App.on_claim_meld rd username meld_type).1.players_hands pos =
        some new_hand ∧
      new_hand.length + k = (App.hand_of rd pos).length ∧
      new_hand.Sublist (App.hand_of rd pos) ∧
      (App.on_claim_meld rd username meld_type).1.discard_pile =
        rd.discard_pile.dropLast ∧
      (App.on_claim_meld rd username meld_type).1.last_discard = some d := by
  rcases hsupp with ⟨hmt, hcan, hk⟩ | ⟨hmt, hcan, hk⟩ | ⟨hmt, hcan, hk⟩
  · subst hmt hk
    have hcount : 2 ≤ ((App.hand_of rd pos).filter fun t => t.id == d.id).length :=
      of_decide_eq_true hcan
    have hne : App.hand_of rd pos ≠ [] := by
      intro h0
      rw [h0] at hcount
      simp at hcount
    have hstep : App.on_claim_meld rd username "pong" =
        App.finishClaim rd username pos d "pong"
          (App.removeMatches d.id 2 (App.hand_of rd pos)).1
          (App.removeMatches d.id 2 (App.hand_of rd pos)).2 := by
      simp only [App.on_claim_meld, hpos, hld, hcan]
      simp
    rw [hstep]
    obtain ⟨h1, h2, h3⟩ := finishClaim_effects rd username pos d "pong" _ _
      (hand_of_lookup rd pos hne)
    refine ⟨_, h1, ?_, removeMatches_sublist d.id 2 _, h2, by rw [h3, hld]⟩
    exact removeMatches_length d.id 2 _ hcount
  · subst hmt hk
    have hcount : 3 ≤ ((App.hand_of rd pos).filter fun t => t.id == d.id).length :=
      of_decide_eq_true hcan
    have hne : App.hand_of rd pos ≠ [] := by
      intro h0
      rw [h0] at hcount
      simp at hcount
    have hstep : App.on_claim_meld rd username "kong" =
        App.finishClaim rd username pos d "kong"
          (App.removeMatches d.id 3 (App.hand_of rd pos)).1
          (App.removeMatches d.id 3 (App.hand_of rd pos)).2 := by
      simp only [App.on_claim_meld, hpos, hld, hcan]
      simp
    rw [hstep]
    obtain ⟨h1, h2, h3⟩ := finishClaim_effects rd username pos d "kong" _ _
      (hand_of_lookup rd pos hne)
    refine ⟨_, h1, ?_, removeMatches_sublist d.id 3 _, h2, by rw [h3, hld]⟩
    exact removeMatches_length d.id 3 _ hcount
  · subst hmt hk
    obtain ⟨r, hparse, hbr⟩ := can_claim_chi_spec (App.hand_of rd pos) d hcan
    have hch : ∃ n1 n2, n1 ≠ n2 ∧
        (n1 ∈ Live.hand_numbers (App.hand_of rd pos) d) ∧
        (n2 ∈ Live.hand_numbers (App.hand_of rd pos) d) ∧
        ∃ seq, Live.can_claim_chi (App.hand_of rd pos) d = (true, some seq) ∧
          seq.filter (fun n => !(n == r)) = [n1, n2] := by
      rcases hbr with ⟨⟨ha1, ha2⟩, heq⟩ | ⟨hna, ⟨hb1, hb2⟩, heq⟩ | ⟨hna, hnb, ⟨hc1, hc2⟩, heq⟩
      · refine ⟨r - 2, r - 1, by omega, ha1, ha2, [r - 2, r - 1, r], heq, ?_⟩
        have e1 : ((r - 2 : Int) == r) = false := beq_eq_false_iff_ne.mpr (by omega)
        have e2 : ((r - 1 : Int) == r) = false := beq_eq_false_iff_ne.mpr (by omega)
        simp [e1, e2]
      · refine ⟨r - 1, r + 1, by omega, hb1, hb2, [r - 1, r, r + 1], heq, ?_⟩
        have e1 : ((r - 1 : Int) == r) = false := beq_eq_false_iff_ne.mpr (by omega)
        have e2 : ((r + 1 : Int) == r) = false := beq_eq_false_iff_ne.mpr (by omega)
        simp [e1, e2]
      · refine ⟨r + 1, r + 2, by omega, hc1, hc2, [r, r + 1, r + 2], heq, ?_⟩
        have e1 : ((r + 1 : Int) == r) = false := beq_eq_false_iff_ne.mpr (by omega)
        have e2 : ((r + 2 : Int) == r) = false := beq_eq_false_iff_ne.mpr (by omega)
        simp [e1, e2]
    obtain ⟨n1, n2, hne12, hm1, hm2, seq, hcc, hfilter⟩ := hch
    have hw1 := (mem_hand_numbers (App.hand_of rd pos) d n1).mp hm1
    have hw2 := (mem_hand_numbers (App.hand_of rd pos) d n2).mp hm2
    have hne : App.hand_of rd pos ≠ [] := by
      intro h0
      rw [h0] at hw1
      simp at hw1
    have hstep : App.on_claim_meld rd username "chi" =
        App.finishClaim rd username pos d "chi"
          (App.claimChiTiles d.suit [n1, n2] (App.hand_of rd pos)).1
          (App.claimChiTiles d.suit [n1, n2] (App.hand_of rd pos)).2 := by
      simp only [App.on_claim_meld, hpos, hld, hcc, hparse, hfilter]
      simp
    rw [hstep]
    obtain ⟨heff1, heff2, heff3⟩ := finishClaim_effects rd username pos d "chi" _ _
      (hand_of_lookup rd pos hne)
    obtain ⟨hlen, hsub⟩ := claimChiTiles_two d.suit n1 n2 (App.hand_of rd pos) hne12 hw1 hw2
    exact ⟨_, heff1, hlen, hsub, heff2, by rw [heff3, hld]⟩

/-- Witness for C2 (amended): the pong claim in `Ex.claimRoom` reduces bob's
hand by 2, pops the discard pile and leaves `last_discard` set. -/
theorem claim_meld_effects_witness :
    (App.lookup? Ex.claimRoom.positions "bob" = some "east" ∧
      Ex.claimRoom.last_discard = some (Live.Tile.mk 5) ∧
      Live.can_claim_pong (App.hand_of Ex.claimRoom "east") (Live.Tile.mk 5) = true) ∧
    (∃ new_hand,
      App.lookup? (App.on_claim_meld Ex.claimRoom "bob" "pong").1.players_hands "east" =
        some new_hand ∧
      new_hand.length + 2 = (App.hand_of Ex.claimRoom "east").length ∧
      new_hand.Sublist (App.hand_of Ex.claimRoom "east") ∧
      (App.on_claim_meld Ex.claimRoom "bob" "pong").1.discard_pile =
        Ex.claimRoom.discard_pile.dropLast ∧
      (App.on_claim_meld Ex.claimRoom "bob" "pong").1.last_discard =
        some (Live.Tile.mk 5)) :=
  ⟨⟨by decide, by decide, by decide⟩,
    claim_meld_effects Ex.claimRoom "bob" "east" (Live.Tile.mk 5) "pong" 2 (by decide)
      (by decide) (Or.inl ⟨rfl, by decide, rfl⟩)⟩

/-- Modifying one key leaves the other lookups unchanged. -/
theorem lookup?_modifyKey_other {β : Type} (m : List (String × β)) (k k' : String)
    (f : β → β) (h : k' ≠ k) :
    App.lookup? (App.modifyKey m k f) k' = App.lookup? m k' := by
  induction m with
  | nil => simp [App.modifyKey]
  | cons p rest ih =>
    unfold App.modifyKey
    by_cases hp : p.1 == k
    · rw [if_pos hp]
      unfold App.lookup?
      have : (p.1 == k') = false := by
        have := beq_iff_eq.mp hp
        exact beq_eq_false_iff_ne.mpr (by rw [this]; exact fun hc => h hc.symm)
      rw [this]
      simp [this]
    · rw [if_neg hp]
      unfold App.lookup?
      by_cases hp2 : p.1 == k'
      · rw [if_pos hp2, if_pos hp2]
      · rw [if_neg hp2, if_neg hp2]
        exact ih

/-- With unique keys, membership determines the lookup. -/
theorem lookup?_eq_of_mem_nodup {β : Type} (m : List (String × β)) (k : String) (v : β)
    (hmem : (k, v) ∈ m) (hnodup : (m.map Prod.fst).Nodup) :
    App.lookup? m k = some v := by
  induction m with
  | nil => simp at hmem
  | cons p rest ih =>
    rw [List.map_cons, List.nodup_cons] at hnodup
    rcases List.mem_cons.mp hmem with rfl | hmem2
    · unfold App.lookup?
      simp
    · unfold App.lookup?
      have hp : (p.1 == k) = false := by
        refine beq_eq_false_iff_ne.mpr fun hc => ?_
        apply hnodup.1
        rw [hc]
        exact List.mem_map.mpr ⟨(k, v), hmem2, rfl⟩
      rw [hp]
      simp only [Bool.false_eq_true, if_false]
      exact ih hmem2 hnodup.2

/-- Every output of a successful `mapM` comes from some input. -/
theorem mapM_mem_right {α β : Type} (f : α → Option β) (l : List α) (res : List β)
    (h : l.mapM f = some res) : ∀ b ∈ res, ∃ a ∈ l, f a = some b := by
  induction l generalizing res with
  | nil =>
    simp [List.mapM.loop] at h
    subst h
    simp
  | cons x xs ih =>
    rw [List.mapM_cons] at h
    cases hx : f x with
    | none => rw [hx] at h; simp at h
    | some b0 =>
      rw [hx] at h
      cases hrest : xs.mapM f with
      | none => rw [hrest] at h; simp at h
      | some bs =>
        rw [hrest] at h
        simp at h
        subst h
        intro b hb
        rcases List.mem_cons.mp hb with rfl | hb2
        · exact ⟨x, by simp, hx⟩
        · obtain ⟨a, ha, hfa⟩ := ih bs hrest b hb2
          exact ⟨a, by simp [ha], hfa⟩

/-- Every input of a successful `mapM` produced some output. -/
theorem mapM_mem_left {α β : Type} (f : α → Option β) (l : List α) (res : List β)
    (h : l.mapM f = some res) : ∀ a ∈ l, ∃ b ∈ res, f a = some b := by
  induction l generalizing res with
  | nil => simp
  | cons x xs ih =>
    rw [List.mapM_cons] at h
    cases hx : f x with
    | none => rw [hx] at h; simp at h
    | some b0 =>
      rw [hx] at h
      cases hrest : xs.mapM f with
      | none => rw [hrest] at h; simp at h
      | some bs =>
        rw [hrest] at h
        simp at h
        subst h
        intro a ha
        rcases List.mem_cons.mp ha with rfl | ha2
        · exact ⟨b0, by simp, hx⟩
        · obtain ⟨b, hb, hfb⟩ := ih bs hrest a ha2
          exact ⟨b, by simp [hb], hfb⟩

/-- Python's `max(..., key=...)` returns the start value or an element. -/
theorem foldl_maxBy_mem (xs : List (String × Nat)) (x : String × Nat) :
    xs.foldl (fun best y => if best.2 < y.2 then y else best) x ∈ x :: xs := by
  induction xs generalizing x with
  | nil => simp
  | cons y ys ih =>
    simp only [List.foldl_cons]
    by_cases hy : x.2 < y.2
    · rw [if_pos hy]
      rcases List.mem_cons.mp (ih y) with h | h
      · simp [h]
      · simp [List.mem_cons, h]
    · rw [if_neg hy]
      rcases List.mem_cons.mp (ih x) with h | h
      · simp [h]
      · simp [List.mem_cons, h]

/-- The max fold dominates the start value and every element. -/
theorem foldl_maxBy_ge (xs : List (String × Nat)) (x : String × Nat) :
    x.2 ≤ (xs.foldl (fun best y => if best.2 < y.2 then y else best) x).2 ∧
    ∀ y ∈ xs, y.2 ≤ (xs.foldl (fun best y => if best.2 < y.2 then y else best) x).2 := by
  induction xs generalizing x with
  | nil => simp
  | cons y ys ih =>
    simp only [List.foldl_cons]
    by_cases hy : x.2 < y.2
    · rw [if_pos hy]
      obtain ⟨h1, h2⟩ := ih y
      refine ⟨by omega, ?_⟩
      intro z hz
      rcases List.mem_cons.mp hz with rfl | hz2
      · exact h1
      · exact h2 z hz2
    · rw [if_neg hy]
      obtain ⟨h1, h2⟩ := ih x
      refine ⟨h1, ?_⟩
      intro z hz
      rcases List.mem_cons.mp hz with rfl | hz2
      · omega
      · exact h2 z hz2

/-- A successful `maxByVal` returns an entry whose value dominates all. -/
theorem maxByVal_spec (l : List (String × Nat)) (wp : String × Nat)
    (h : App.maxByVal l = some wp) : wp ∈ l ∧ ∀ x ∈ l, x.2 ≤ wp.2 := by
  unfold App.maxByVal at h
  cases l with
  | nil => simp at h
  | cons x xs =>
    simp only [Option.some_inj] at h
    subst h
    obtain ⟨h1, h2⟩ := foldl_maxBy_ge xs x
    refine ⟨foldl_maxBy_mem xs x, ?_⟩
    intro z hz
    rcases List.mem_cons.mp hz with rfl | hz2
    · exact h1
    · exact h2 z hz2

/-- The inner payout loop on success: users outside the loop are untouched,
the winner gains the (possibly doubled) stake once per loser entry, and each
loser entry pays the stake once. -/
theorem pay_inner_spec (entries : List (String × String)) (winner : String) (double : Bool)
    (ws : Nat) (s sFinal : List (String × Int))
    (hnodup : (entries.map Prod.fst).Nodup)
    (hrun : App.pay_inner entries winner double ws s = (sFinal, none)) :
    (∀ u, u ∉ entries.map Prod.fst → u ≠ winner →
        App.lookup? sFinal u = App.lookup? s u) ∧
    (App.lookup? sFinal winner = (App.lookup? s winner).map
        (· + ((entries.filter fun e => !(e.1 == winner)).length : Int) *
          ((if double then 2 else 1) * (ws : Int)))) ∧
    (∀ u p, (u, p) ∈ entries → u ≠ winner →
        App.lookup? sFinal u = (App.lookup? s u).map
          (· - (if double then 2 else 1) * (ws : Int))) := by
  induction entries generalizing s with
  | nil =>
    unfold App.pay_inner at hrun
    simp only [Prod.mk.injEq] at hrun
    obtain ⟨h1, _⟩ := hrun
    subst h1
    exact ⟨fun u _ _ => rfl, by simp, by simp⟩
  | cons e rest ih =>
    obtain ⟨loser, p0⟩ := e
    rw [List.map_cons, List.nodup_cons] at hnodup
    unfold App.pay_inner at hrun
    by_cases hl : (loser == winner) = true
    · rw [if_pos hl] at hrun
      have hlw : loser = winner := beq_iff_eq.mp hl
      obtain ⟨ih1, ih2, ih3⟩ := ih s hnodup.2 hrun
      refine ⟨?_, ?_, ?_⟩
      · intro u hu hw
        exact ih1 u (fun hc => hu (by simp [hc])) hw
      · rw [List.filter_cons]
        simp only [hl, Bool.not_true]
        simp only [Bool.false_eq_true, if_false]
        exact ih2
      · intro u pu hu hne
        rcases List.mem_cons.mp hu with heq | hu2
        · exact absurd (by rw [Prod.mk.injEq] at heq; rw [heq.1, hlw]) hne
        · exact ih3 u pu hu2 hne
    · rw [if_neg hl] at hrun
      simp only [] at hrun
      have hlw : loser ≠ winner := by simpa using hl
      set d : Int := (if double then 2 else 1) * (ws : Int) with hd
      cases hb1 : App.bump s winner d with
      | none => rw [hb1] at hrun; simp at hrun
      | some s1 =>
        rw [hb1] at hrun
        simp only [] at hrun
        cases hb2 : App.bump s1 loser (-d) with
        | none => rw [hb2] at hrun; simp at hrun
        | some s2 =>
          rw [hb2] at hrun
          simp only [] at hrun
          obtain ⟨ih1, ih2, ih3⟩ := ih s2 hnodup.2 hrun
          -- unpack the bumps
          unfold App.bump at hb1 hb2
          have hw1 : (App.lookup? s winner).isSome = true := by
            by_contra hc
            simp only [Bool.not_eq_true] at hc
            rw [if_neg (by simp [hc])] at hb1
            exact Option.noConfusion hb1
          rw [if_pos (by simpa using hw1)] at hb1
          have hs1 : s1 = App.modifyKey s winner (· + d) := by
            simpa using hb1.symm
          have hw2 : (App.lookup? s1 loser).isSome = true := by
            by_contra hc
            simp only [Bool.not_eq_true] at hc
            rw [if_neg (by simp [hc])] at hb2
            exact Option.noConfusion hb2
          rw [if_pos (by simpa using hw2)] at hb2
          have hs2 : s2 = App.modifyKey s1 loser (· + (-d)) := by
            simpa using hb2.symm
          have hlook_s1_other : ∀ u, u ≠ winner → App.lookup? s1 u = App.lookup? s u := by
            intro u hu
            rw [hs1]
            exact lookup?_modifyKey_other s winner u _ hu
          have hlook_s2_other : ∀ u, u ≠ loser → App.lookup? s2 u = App.lookup? s1 u := by
            intro u hu
            rw [hs2]
            exact lookup?_modifyKey_other s1 loser u _ hu
          obtain ⟨v, hv⟩ := Option.isSome_iff_exists.mp hw1
          have hlook_s1_w : App.lookup? s1 winner = some (v + d) := by
            rw [hs1]
            exact lookup?_modifyKey_self s winner _ v hv
          refine ⟨?_, ?_, ?_⟩
          · intro u hu hw
            have hu1 : u ≠ loser := fun hc => hu (by simp [hc])
            have hu2 : u ∉ rest.map Prod.fst := fun hc => hu (by simp [hc])
            rw [ih1 u hu2 hw, hlook_s2_other u hu1, hlook_s1_other u hw]
          · rw [ih2, hlook_s2_other winner (Ne.symm hlw), hlook_s1_w, hv]
            rw [List.filter_cons]
            have : (!(loser == winner)) = true := by simp [hl]
            rw [if_pos this]
            simp only [List.length_cons, Option.map_some']
            congr 1
            push_cast
            ring
          · intro u pu hu hne
            rcases List.mem_cons.mp hu with heq | hu2
            · have huL : u = loser := by
                rw [Prod.mk.injEq] at heq
                exact heq.1
              subst huL
              have hnotrest : u ∉ rest.map Prod.fst := hnodup.1
              rw [ih1 u hnotrest hne]
              obtain ⟨w, hwv⟩ := Option.isSome_iff_exists.mp hw2
              have : App.lookup? s2 u = some (w + (-d)) := by
                rw [hs2]
                exact lookup?_modifyKey_self s1 u _ w hwv
              rw [this]
              rw [hlook_s1_other u hne] at hwv
              rw [hwv]
              simp only [Option.map_some']
              exact congrArg some (by ring)
            · have hurest : u ∈ rest.map Prod.fst := List.mem_map.mpr ⟨(u, pu), hu2, rfl⟩
              have huL : u ≠ loser := fun hc => hnodup.1 (hc ▸ hurest)
              rw [ih3 u pu hu2 hne, hlook_s2_other u huL, hlook_s1_other u hne]

/-- The outer payout loop does nothing when the winner never occurs. -/
theorem pay_outer_skip (entries all : List (String × String)) (winner wpos : String)
    (ws : Nat) (s : List (String × Int))
    (h : winner ∉ entries.map Prod.fst) :
    App.pay_outer entries all winner wpos ws s = (s, none) := by
  induction entries generalizing s with
  | nil => rfl
  | cons e rest ih =>
    rw [List.map_cons] at h
    unfold App.pay_outer
    have he : (e.1 == winner) = false := by
      refine beq_eq_false_iff_ne.mpr fun hc => ?_
      exact h (by rw [← hc]; exact List.mem_cons_self _ _)
    rw [he]
    simp only [Bool.false_eq_true, if_false]
    exact ih s fun hc => h (List.mem_cons_of_mem _ hc)

/-- With unique users, the outer payout loop is exactly one pass of the inner
loop at the winner's entry. -/
theorem pay_outer_eq (entries all : List (String × String)) (winner wpos : String)
    (ws : Nat) (s : List (String × Int))
    (hnodup : (entries.map Prod.fst).Nodup)
    (hin : winner ∈ entries.map Prod.fst) :
    App.pay_outer entries all winner wpos ws s =
      App.pay_inner all winner (wpos == "east") ws s := by
  induction entries generalizing s with
  | nil => simp at hin
  | cons e rest ih =>
    rw [List.map_cons, List.nodup_cons] at hnodup
    unfold App.pay_outer
    by_cases he : (e.1 == winner) = true
    · rw [he]
      simp only [if_true]
      have hwin_rest : winner ∉ rest.map Prod.fst := by
        rw [← beq_iff_eq.mp he]
        exact hnodup.1
      cases hpi : App.pay_inner all winner (wpos == "east") ws s with
      | mk s1 err =>
        cases err with
        | none =>
          simp only []
          exact pay_outer_skip rest all winner wpos ws s1 hwin_rest
        | some e2 =>
          simp only []
    · rw [Bool.not_eq_true] at he
      rw [he]
      simp only [Bool.false_eq_true, if_false]
      have hin2 : winner ∈ rest.map Prod.fst := by
        rw [List.map_cons] at hin
        rcases List.mem_cons.mp hin with hc | hc
        · exact absurd (beq_iff_eq.mpr hc.symm) (by simp [he])
        · exact hc
      exact ih s hnodup.2 hin2

/-- Claim C3: whenever `settle_scores` succeeds, the declared winner occupies
the seat whose meld-derived points (pong 4/2, kong 8/4, chi 1) dominate every
seat's points; the result is independent of the `winner`/`win_score`
arguments the caller passed (the seat that triggered the win check); and in
the returned table every other user in the room has paid exactly
`winner_score` — doubled when the winning seat is east — while the winner
gained that stake once per paying user. -/
theorem settle_scores_spec (rd : App.Room) (w0 : Option String) (s0 : Nat)
    (scores2 : List (String × Int)) (winner : String)
    (hnodupU : (rd.positions.map Prod.fst).Nodup)
    (hnodupM : (rd.players_melds.map Prod.fst).Nodup)
    (hok : (App.settle_scores rd w0 s0).2 = Except.ok (scores2, winner)) :
    ∃ wpos,
      rd.positions.find? (fun up => up.2 == wpos) = some (winner, wpos) ∧
      (∀ seat, App.seat_meld_points rd seat ≤ App.seat_meld_points rd wpos) ∧
      (∀ w1 s1, App.settle_scores rd w1 s1 = App.settle_scores rd w0 s0) ∧
      (∀ u p, (u, p) ∈ rd.positions → u ≠ winner →
        App.lookup? scores2 u =
          (App.lookup? (if rd.scores.isEmpty then
              rd.positions.map fun q => (q.1, (2000 : Int)) else rd.scores) u).map
            (· - (if wpos == "east" then 2 else 1) * (App.seat_meld_points rd wpos : Int))) ∧
      App.lookup? scores2 winner =
        (App.lookup? (if rd.scores.isEmpty then
            rd.positions.map fun q => (q.1, (2000 : Int)) else rd.scores) winner).map
          (· + ((rd.positions.filter fun e => !(e.1 == winner)).length : Int) *
            ((if wpos == "east" then 2 else 1) *
              (App.seat_meld_points rd wpos : Int))) := by
  simp only [App.settle_scores] at hok
  set scores0 : List (String × Int) := if rd.scores.isEmpty then
      rd.positions.map fun q => (q.1, (2000 : Int)) else rd.scores with hscores0
  cases hm : rd.players_melds.mapM
      (fun pm => (App.player_points pm.2).map fun sx => (pm.1, sx)) with
  | none => rw [hm] at hok; simp at hok
  | some ps =>
    rw [hm] at hok
    simp only [] at hok
    cases hmax : App.maxByVal ps with
    | none => rw [hmax] at hok; simp at hok
    | some wp =>
      rw [hmax] at hok
      simp only [] at hok
      cases hfind : rd.positions.find? fun up => up.2 == wp.1 with
      | none => rw [hfind] at hok; simp at hok
      | some uw =>
        rw [hfind] at hok
        simp only [] at hok
        cases hpay : (App.pay_outer rd.positions rd.positions uw.1 wp.1 wp.2 scores0).2 with
        | some e => rw [hpay] at hok; simp at hok
        | none =>
          rw [hpay] at hok
          simp only [Except.ok.injEq, Prod.mk.injEq] at hok
          obtain ⟨hsc2, hwin⟩ := hok
          -- resolve uw
          have huw_mem : uw ∈ rd.positions := List.mem_of_find?_eq_some hfind
          have huw2c := List.find?_some hfind
          have huw2 : uw.2 = wp.1 := beq_iff_eq.mp huw2c
          -- wp's own points
          obtain ⟨hwp_mem, hwp_max⟩ := maxByVal_spec ps wp hmax
          obtain ⟨pm, hpm_mem, hpm_eq⟩ := mapM_mem_right _ _ _ hm wp hwp_mem
          have hpm1 : pm.1 = wp.1 ∧ App.player_points pm.2 = some wp.2 := by
            cases hpp : App.player_points pm.2 with
            | none => rw [hpp] at hpm_eq; simp at hpm_eq
            | some v =>
              rw [hpp] at hpm_eq
              simp only [Option.map_some', Option.some_inj] at hpm_eq
              constructor
              · rw [← hpm_eq]
              · rw [← hpm_eq]
          have hpmpair : pm = (wp.1, pm.2) := by
            rw [Prod.mk.injEq]
            exact ⟨hpm1.1, rfl⟩
          have hlook_wp : App.lookup? rd.players_melds wp.1 = some pm.2 :=
            lookup?_eq_of_mem_nodup _ _ _ (hpmpair ▸ hpm_mem) hnodupM
          have hpoints_wpos : App.seat_meld_points rd wp.1 = wp.2 := by
            unfold App.seat_meld_points
            rw [hlook_wp]
            simp [hpm1.2]
          refine ⟨wp.1, ?_, ?_, fun w1 s1 => rfl, ?_, ?_⟩
          · rw [hfind]
            congr 1
            rw [Prod.mk.injEq]
            exact ⟨hwin, huw2⟩
          · intro seat
            rw [hpoints_wpos]
            cases hls : App.lookup? rd.players_melds seat with
            | none => simp [App.seat_meld_points, hls]
            | some ms =>
              obtain ⟨q, hq_mem, hq1, hq2⟩ := lookup?_mem _ _ _ hls
              obtain ⟨x, hx_mem, hx_eq⟩ := mapM_mem_left _ _ _ hm q hq_mem
              cases hpp : App.player_points q.2 with
              | none => rw [hpp] at hx_eq; simp at hx_eq
              | some v =>
                rw [hpp] at hx_eq
                simp only [Option.map_some', Option.some_inj] at hx_eq
                have hv : v ≤ wp.2 := by
                  have h2 := hwp_max x hx_mem
                  rw [← hx_eq] at h2
                  simpa using h2
                rw [hq2] at hpp
                simp [App.seat_meld_points, hls, hpp]
                omega
          · intro u p hu hne
            have hwin_in : uw.1 ∈ rd.positions.map Prod.fst :=
              List.mem_map.mpr ⟨uw, huw_mem, rfl⟩
            have hpo := pay_outer_eq rd.positions rd.positions uw.1 wp.1 wp.2 scores0
              hnodupU hwin_in
            rw [hpo] at hpay hsc2
            cases hpi : App.pay_inner rd.positions uw.1 (wp.1 == "east") wp.2 scores0 with
            | mk sF err =>
              rw [hpi] at hpay hsc2
              simp only [] at hpay hsc2
              subst hpay
              obtain ⟨pi1, pi2, pi3⟩ := pay_inner_spec rd.positions uw.1 (wp.1 == "east")
                wp.2 scores0 sF hnodupU hpi
              rw [hsc2] at pi3
              rw [hwin] at pi3
              rw [hpoints_wpos]
              exact pi3 u p hu hne
          · have hwin_in : uw.1 ∈ rd.positions.map Prod.fst :=
              List.mem_map.mpr ⟨uw, huw_mem, rfl⟩
            have hpo := pay_outer_eq rd.positions rd.positions uw.1 wp.1 wp.2 scores0
              hnodupU hwin_in
            rw [hpo] at hpay hsc2
            cases hpi : App.pay_inner rd.positions uw.1 (wp.1 == "east") wp.2 scores0 with
            | mk sF err =>
              rw [hpi] at hpay hsc2
              simp only [] at hpay hsc2
              subst hpay
              obtain ⟨pi1, pi2, pi3⟩ := pay_inner_spec rd.positions uw.1 (wp.1 == "east")
                wp.2 scores0 sF hnodupU hpi
              rw [hsc2] at pi2
              rw [hwin] at pi2
              rw [hpoints_wpos]
              exact pi2

/-- Witness for C3: the settlement characterisation instantiated on the concrete room Ex.drawRoomMeld, where the winner is "bea" (seat east, so each loser pays double the meld points) and every hypothesis is discharged by computation. -/
theorem settle_scores_spec_witness :
    ((Ex.drawRoomMeld.positions.map Prod.fst).Nodup ∧
      (Ex.drawRoomMeld.players_melds.map Prod.fst).Nodup ∧
      (App.settle_scores Ex.drawRoomMeld none 0).2 =
        Except.ok ([("alice", (1996 : Int)), ("bea", 2012), ("carl", 1996), ("dora", 1996)],
          "bea")) ∧
    (∃ wpos,
      Ex.drawRoomMeld.positions.find? (fun up => up.2 == wpos) = some ("bea", wpos) ∧
      (∀ seat, App.seat_meld_points Ex.drawRoomMeld seat ≤
        App.seat_meld_points Ex.drawRoomMeld wpos) ∧
      (∀ w1 s1, App.settle_scores Ex.drawRoomMeld w1 s1 =
        App.settle_scores Ex.drawRoomMeld none 0) ∧
      (∀ u p, (u, p) ∈ Ex.drawRoomMeld.positions → u ≠ "bea" →
        App.lookup? [("alice", (1996 : Int)), ("bea", 2012), ("carl", 1996), ("dora", 1996)] u =
          (App.lookup? (if Ex.drawRoomMeld.scores.isEmpty then
              Ex.drawRoomMeld.positions.map fun q => (q.1, (2000 : Int))
            else Ex.drawRoomMeld.scores) u).map
            (· - (if wpos == "east" then 2 else 1) *
              (App.seat_meld_points Ex.drawRoomMeld wpos : Int))) ∧
      App.lookup? [("alice", (1996 : Int)), ("bea", 2012), ("carl", 1996), ("dora", 1996)]
          "bea" =
        (App.lookup? (if Ex.drawRoomMeld.scores.isEmpty then
            Ex.drawRoomMeld.positions.map fun q => (q.1, (2000 : Int))
          else Ex.drawRoomMeld.scores) "bea").map
          (· + ((Ex.drawRoomMeld.positions.filter fun e => !(e.1 == "bea")).length : Int) *
            ((if wpos == "east" then 2 else 1) *
              (App.seat_meld_points Ex.drawRoomMeld wpos : Int)))) :=
  ⟨⟨by decide, by decide, rfl⟩,
    settle_scores_spec Ex.drawRoomMeld none 0
      [("alice", 1996), ("bea", 2012), ("carl", 1996), ("dora", 1996)] "bea"
      (by decide) (by decide) rfl⟩
